import Mathlib

set_option maxRecDepth 40000

/-!
Shallow embedding of the bounter hash-table counter (src/cbounter/ht_common.c)
and verification of its specification.

Modelling conventions:
* Keys are abstract byte strings, represented by `Nat`; the external MurmurHash3
  function and the byte length of a key are parameters `hash klen : Nat → Nat`.
* A cell (`HT_cell_t`) is a pair of an optional key (NULL pointer = `none`) and a
  64-bit signed count modelled as `Int` (negative states are unreachable, and
  the code guards all additions against 64-bit overflow).
* `uint32_t` / `uint64_t` arithmetic is modelled on `Nat` with explicit `% 2^32`
  (resp. `% 2^64`) wherever the C value could wrap.
* The HyperLogLog sketch is external per the specification; we model it by the
  trace of 32-bit hashes fed to `HyperLogLog_add`, as a `List Nat`.
* C loops whose termination is not structural (`find_cell`, `_init` start scan)
  are modelled with fuel; fuel exhaustion returns `none`, modelling a
  non-terminating C loop (which produces no observable state).
-/

/-- Two to the 32, the modulus of `uint32_t` arithmetic. -/
def U32 : Nat := 4294967296

/-- Two to the 64, the modulus of `uint64_t` arithmetic. -/
def U64 : Nat := 18446744073709551616

/-- Largest 64-bit signed integer (`LLONG_MAX`). -/
def LLONG_MAX : Int := 9223372036854775807

/-- Wrapping `uint32_t` increment, used for histogram counters. -/
def hinc (x : Nat) : Nat := (x + 1) % U32

/-- Wrapping `uint32_t` decrement, used for histogram counters. -/
def hdec (x : Nat) : Nat := (x + (U32 - 1)) % U32

/-- Wrapping `uint64_t` addition (for `str_allocated`). -/
def add64 (a b : Nat) : Nat := (a + b) % U64

/-- Wrapping `uint64_t` subtraction (for `str_allocated`); operands are kept below `2^64`. -/
def sub64 (a b : Nat) : Nat := (a + (U64 - b % U64)) % U64

/-- Wrapping `uint32_t` subtraction. -/
def sub32 (a b : Nat) : Nat := (a + (U32 - b % U32)) % U32

/-- Cyclic distance computed the way the C source does: `(b - a) & mask` on
`uint32_t` operands `a b < 2^32`. -/
def cdist (mask a b : Nat) : Nat := ((b + (U32 - a)) % U32) &&& mask

/-- One slot of the open-addressed table (`HT_cell_t`): a NULL-able key pointer
and a `long long` count. -/
structure Cell where
  key : Option Nat
  count : Int
deriving DecidableEq

/-- The counter state (`HT_TYPE`): scalars, the cell table, the 256-bin
histogram and the HyperLogLog feed trace. The table and histogram are total
functions; the code only ever accesses indices below `buckets` resp. `256`. -/
structure HT where
  buckets : Nat
  hash_mask : Nat
  str_allocated : Nat
  total : Int
  size : Nat
  table : Nat → Cell
  histo : Nat → Nat
  max_prune : Int
  hll : List Nat

section Ops

variable (hash klen : Nat → Nat)

/-- Model of `HT_bucket` (ht_common.c:143): compute the 32-bit hash, optionally
feed the full pre-masked hash to the HyperLogLog, then mask. Returns the
(possibly hll-extended) state together with the masked bucket. -/
def ht_bucket (ht : HT) (k : Nat) (store : Bool) : HT × Nat :=
  let b := hash k
  let ht1 := if store then { ht with hll := ht.hll ++ [b] } else ht
  (ht1, b &&& ht.hash_mask)

/-- Fueled linear-probing loop of `HT_find_cell` (ht_common.c:158): advance
while the slot is occupied by a different key; stop on an empty slot or a key
match. `none` models a non-terminating probe. -/
def probe (table : Nat → Cell) (mask k : Nat) : Nat → Nat → Option Nat
  | 0, _ => none
  | fuel + 1, b =>
    match (table b).key with
    | none => some b
    | some k2 => if k2 = k then some b else probe table mask k fuel ((b + 1) &&& mask)

/-- Model of `HT_find_cell` (ht_common.c:153): returns the state (whose hll may
have been fed when `store` is set) and the index of the found cell. -/
def find_cell (ht : HT) (k : Nat) (store : Bool) : Option (HT × Nat) :=
  let p := ht_bucket hash ht k store
  match probe p.1.table p.1.hash_mask k p.1.buckets p.2 with
  | none => none
  | some i => some (p.1, i)

/-- Fueled shift loop of `HT_histo_addr` (ht_common.c:176): halve `h` until it
is at most 15, incrementing `log_result` each time, then combine. The loop of
the C source runs at most `bitlen h` times, so fuel `h` is always enough. -/
def histoShiftAux : Nat → Nat → Nat → Nat
  | 0, log_result, h => (log_result <<< 3) + (h &&& 7)
  | fuel + 1, log_result, h =>
    if 15 < h then histoShiftAux fuel (log_result + 1) (h / 2)
    else (log_result <<< 3) + (h &&& 7)

/-- Shift loop of `HT_histo_addr` with sufficient fuel. -/
def histoShift (log_result h : Nat) : Nat := histoShiftAux h log_result h

/-- Model of `HT_histo_addr` (ht_common.c:165): the logarithmic histogram bin of
a count. -/
def histo_addr (value : Int) : Nat :=
  if value < 0 then 0
  else if value < 16 then value.toNat
  else if 0x3C0000000 ≤ value then 255
  else histoShift 1 value.toNat

/-- Fueled scan loop of `HT_prune_size` (ht_common.c:192): accumulate histogram
bins (`uint32_t` arithmetic) until `required` is covered or bin 255 is reached;
returns the final `index`. The loop runs at most 255 times. -/
def prune_scanAux (histo : Nat → Nat) (required : Nat) : Nat → Nat → Nat → Nat
  | 0, _, index => index
  | fuel + 1, removing, index =>
    if removing < required ∧ index < 255 then
      prune_scanAux histo required fuel ((removing + histo index) % U32) (index + 1)
    else index

/-- Scan loop of `HT_prune_size` with sufficient fuel. -/
def prune_scan (histo : Nat → Nat) (required : Nat) (removing index : Nat) : Nat :=
  prune_scanAux histo required 255 removing index

/-- Lower edge of histogram bin `index`, exactly as computed on line 197 of
ht_common.c (also lines 570-571). -/
def bin_edge (index : Nat) : Nat :=
  if index < 16 then index else (8 + (index &&& 7)) <<< ((index >>> 3) - 1)

/-- Model of `HT_prune_size` (ht_common.c:186): the automatic prune boundary. -/
def prune_size (ht : HT) : Int :=
  let required := sub32 ht.size (ht.buckets >>> 1)
  let index := prune_scan ht.histo required 0 0
  (bin_edge index : Int) - 1

/-- State threaded through the prune loop of `HT_prune_int`. -/
structure PruneSt where
  table : Nat → Cell
  histo : Nat → Nat
  str_allocated : Nat
  size : Nat
  last_free : Nat

/-- Relocation probe of `HT_prune_int` (ht_common.c:266): advance from `r`
while the slot is occupied and not equal to `i`. The loop always terminates
within `mask + 1` steps, which is the fuel the callers pass. -/
def findReplace (table : Nat → Cell) (mask i : Nat) : Nat → Nat → Nat
  | 0, r => r
  | fuel + 1, r =>
    if r = i then r
    else
      match (table r).key with
      | none => r
      | some _ => findReplace table mask i fuel ((r + 1) &&& mask)

/-- Body of the prune loop of `HT_prune_int` (ht_common.c:250-294) for the slot
`i` being visited. -/
def pruneStep (mask : Nat) (boundary : Int) (s : PruneSt) (i : Nat) : PruneSt :=
  match (s.table i).key with
  | none => { s with last_free := i }
  | some k =>
    let c := (s.table i).count
    if boundary < c then
      let r0 := hash k &&& mask
      let r1 := if cdist mask r0 i < cdist mask s.last_free i then i else r0
      let r2 := findReplace s.table mask i (mask + 1) r1
      if r2 = i then
        { s with
            histo := Function.update s.histo (histo_addr c) (hinc (s.histo (histo_addr c)))
            size := (s.size + 1) % U32 }
      else
        { table := Function.update (Function.update s.table r2 ⟨some k, c⟩) i ⟨none, 0⟩
          histo := Function.update s.histo (histo_addr c) (hinc (s.histo (histo_addr c)))
          str_allocated := s.str_allocated
          size := (s.size + 1) % U32
          last_free := i }
    else
      { table := Function.update s.table i ⟨none, 0⟩
        histo := s.histo
        str_allocated := sub64 s.str_allocated (klen k + 1)
        size := s.size
        last_free := i }

/-- Scan of `HT_prune_int` (ht_common.c:245) for the first empty row, starting
at index 0 and moving up without masking. `none` models the out-of-bounds scan
of a full table (undefined behaviour in C). -/
def findStart (table : Nat → Cell) : Nat → Nat → Option Nat
  | 0, _ => none
  | fuel + 1, s => if (table s).key = none then some s else findStart table fuel (s + 1)

/-- Cyclic index sequence visited by the do-while loop of `HT_prune_int`:
`(start + 1) & mask, (start + 2) & mask, …` for `mask + 1` iterations, ending
with `start` itself. -/
def pruneIdxs (mask start : Nat) : List Nat :=
  (List.range (mask + 1)).map (fun t => (start + 1 + t) &&& mask)

/-- Model of `HT_prune_int` (ht_common.c:226): evict all cells with count at
most `boundary` and compact the survivors in place, rebuilding the histogram
and `size`. The total is untouched by the C function. -/
def prune_int (ht : HT) (boundary : Int) : Option HT :=
  match findStart ht.table ht.buckets 0 with
  | none => none
  | some start =>
    let s0 : PruneSt :=
      { table := ht.table, histo := fun _ => 0, str_allocated := ht.str_allocated
        size := 0, last_free := start }
    let s1 := (pruneIdxs ht.hash_mask start).foldl (pruneStep hash klen ht.hash_mask boundary) s0
    some { ht with
            max_prune := if ht.max_prune < boundary then boundary else ht.max_prune
            table := s1.table
            histo := s1.histo
            str_allocated := s1.str_allocated
            size := s1.size }

/-- Model of `HT_allocate_cell` (ht_common.c:202): find the cell for `k`,
feeding the sketch; on an empty slot, possibly auto-prune and re-find (without
feeding), then install a fresh key with count 0. -/
def allocate_cell (ht : HT) (k : Nat) : Option (HT × Nat) :=
  match find_cell hash ht k true with
  | none => none
  | some (ht1, i) =>
    match (ht1.table i).key with
    | some _ => some (ht1, i)
    | none =>
      let step2 : Option (HT × Nat) :=
        if (ht1.buckets >>> 2) * 3 ≤ ht1.size then
          match prune_int hash klen ht1 (prune_size ht1) with
          | none => none
          | some ht2 => find_cell hash ht2 k false
        else some (ht1, i)
      match step2 with
      | none => none
      | some (ht2, j) =>
        some ({ ht2 with
                  size := (ht2.size + 1) % U32
                  str_allocated := add64 ht2.str_allocated (klen k + 1)
                  table := Function.update ht2.table j ⟨some k, 0⟩
                  histo := Function.update ht2.histo 0 (hinc (ht2.histo 0)) }, j)

/-- Result of `HT_increment_obj`: divergence (non-terminating probe), a Python
`ValueError`, a Python `OverflowError` (carrying the state at the moment the
error is raised), or success. -/
inductive IncRes where
  | diverge : IncRes
  | valueError : IncRes
  | overflowError : HT → IncRes
  | ok : HT → IncRes

/-- Model of `HT_increment_obj` (ht_common.c:313). -/
def increment_obj (ht : HT) (k : Nat) (increment : Int) : IncRes :=
  if increment < 0 then .valueError
  else if increment = 0 then .ok ht
  else
    match allocate_cell hash klen ht k with
    | none => .diverge
    | some (ht1, i) =>
      if LLONG_MAX - increment < (ht1.table i).count then .overflowError ht1
      else
        let old := (ht1.table i).count
        let h1 := Function.update ht1.histo (histo_addr old) (hdec (ht1.histo (histo_addr old)))
        let h2 := Function.update h1 (histo_addr (old + increment)) (hinc (h1 (histo_addr (old + increment))))
        .ok { ht1 with
                total := ht1.total + increment
                histo := h2
                table := Function.update ht1.table i ⟨(ht1.table i).key, old + increment⟩ }

/-- Result of `HT_setitem`. -/
inductive SetRes where
  | diverge : SetRes
  | valueError : SetRes
  | ok : HT → SetRes

/-- Model of the set branch of `HT_setitem` (ht_common.c:380-403). -/
def setitem (ht : HT) (k : Nat) (value : Int) : SetRes :=
  if value < 0 then .valueError
  else
    match (if value ≠ 0 then allocate_cell hash klen ht k else find_cell hash ht k false) with
    | none => .diverge
    | some (ht1, i) =>
      let old := (ht1.table i).count
      let h1 := Function.update ht1.histo (histo_addr old) (hdec (ht1.histo (histo_addr old)))
      let h2 := Function.update h1 (histo_addr value) (hinc (h1 (histo_addr value)))
      .ok { ht1 with
              total := ht1.total + (value - old)
              histo := h2
              table := Function.update ht1.table i ⟨(ht1.table i).key, value⟩ }

/-- Model of the delete branch of `HT_setitem` (ht_common.c:405-416): reset the
count to 0 but keep the key and the slot. -/
def delitem (ht : HT) (k : Nat) : Option HT :=
  match find_cell hash ht k false with
  | none => none
  | some (ht1, i) =>
    let old := (ht1.table i).count
    let h1 := Function.update ht1.histo (histo_addr old) (hdec (ht1.histo (histo_addr old)))
    let h2 := Function.update h1 0 (hinc (h1 0))
    some { ht1 with
            total := ht1.total - old
            histo := h2
            table := Function.update ht1.table i ⟨(ht1.table i).key, 0⟩ }

/-- Model of `HT_getitem` (ht_common.c:422): pure lookup returning the count of
the found cell (0 on an empty slot). -/
def getitem (ht : HT) (k : Nat) : Option Int :=
  match find_cell hash ht k false with
  | none => none
  | some (ht1, i) => some ((ht1.table i).count)

/-- Result of `HT_init`. -/
inductive InitRes where
  | valueError : InitRes
  | ok : HT → InitRes

/-- Fueled bit-length loop of `HT_init` (ht_common.c:113-117): the number of
right-shifts needed to reach 0; `hash_length` ends as `bitlen w - 1`, and the
clamp to 0 for `w = 0` coincides with `Nat` truncated subtraction. -/
def bitlenAux : Nat → Nat → Nat
  | 0, _ => 0
  | fuel + 1, w => if w = 0 then 0 else bitlenAux fuel (w / 2) + 1

/-- Bit-length loop of `HT_init` with sufficient fuel. -/
def bitlen (w : Nat) : Nat := bitlenAux w w

/-- Model of `HT_init` (ht_common.c:90): validate the bucket count, round it
down to a power of two, and build the empty counter. -/
def ht_init (w : Int) : InitRes :=
  if w < 4 then .valueError
  else if 0xFFFFFFFF < w then .valueError
  else
    let hl := bitlen w.toNat - 1
    let b := 1 <<< hl
    .ok { buckets := b
          hash_mask := b - 1
          str_allocated := 0
          total := 0
          size := 0
          table := fun _ => ⟨none, 0⟩
          histo := fun _ => 0
          max_prune := 0
          hll := [] }

/-- Model of `HT_size` (ht_common.c:445): `size - histo[0]` on `uint32_t`. -/
def size_obs (ht : HT) : Nat := sub32 ht.size (ht.histo 0)

/-- Model of `HT_total` (ht_common.c:439). -/
def total_obs (ht : HT) : Int := ht.total

/-- Model of `HT_buckets` (ht_common.c:603). -/
def buckets_obs (ht : HT) : Nat := ht.buckets

/-- Model of `HT_cardinality` (ht_common.c:451): live size before any prune,
HyperLogLog estimate afterwards. The estimator (external) is the parameter
`est`, a function of the trace of fed hashes, already truncated to integer. -/
def cardinality_obs (est : List Nat → Int) (ht : HT) : Int :=
  if ht.max_prune = 0 then (size_obs ht : Int) else est ht.hll

/-- Model of `HT_quality` (ht_common.c:461) as an exact rational: the chosen
size measure (external estimator `estq` after a prune) over `(B >> 2) * 3`. -/
def quality_obs (estq : List Nat → Rat) (ht : HT) : Rat :=
  (if ht.max_prune = 0 then ((size_obs ht : Rat)) else estq ht.hll) /
    (((ht.buckets >>> 2) * 3 : Nat) : Rat)

/-- Model of `HT_print_alloc` (ht_common.c:579), the `mem()` observer:
`sizeof(cell) * buckets + str_allocated + sizeof(uint32_t) * 256` with the
16-byte cell of a 64-bit platform. -/
def mem_obs (ht : HT) : Nat := 16 * ht.buckets + ht.str_allocated + 4 * 256

/-- Model of the key/value iterator (ht_common.c:712): walk the table in slot
order, yielding the (possibly NULL) key and count of each slot whose count is
nonzero. -/
def items_obs (ht : HT) : List (Option Nat × Int) :=
  (List.range ht.buckets).filterMap fun i =>
    if (ht.table i).count ≠ 0 then some ((ht.table i).key, (ht.table i).count) else none

/-- Wire snapshot produced by `HT_reduce` (ht_common.c:477): constructor
argument and state tuple. Cell key pointers are meaningless on the wire, so
cells are serialized as (non-NULL flag, count); keys travel separately as the
slot-ordered list of key strings. -/
structure Snapshot where
  buckets : Nat
  total : Int
  str_allocated : Nat
  size : Nat
  max_prune : Int
  cells : List (Bool × Int)
  keys : List Nat
  histo : List Nat
  hll : List Nat

/-- Model of `HT_reduce` (ht_common.c:477). -/
def snapshot (ht : HT) : Snapshot :=
  { buckets := ht.buckets
    total := ht.total
    str_allocated := ht.str_allocated
    size := ht.size
    max_prune := ht.max_prune
    cells := (List.range ht.buckets).map fun i => ((ht.table i).key.isSome, (ht.table i).count)
    keys := (List.range ht.buckets).filterMap fun i => (ht.table i).key
    histo := (List.range 256).map ht.histo
    hll := ht.hll }

/-- Key-rebuilding walk of `HT_set_state` (ht_common.c:533-548): for each slot
whose recorded key pointer was non-NULL, consume the next word of the keys
blob; `none` models the overflow error when the blob is exhausted. -/
def rebuildTable : List (Bool × Int) → List Nat → Option (List Cell)
  | [], _ => some []
  | (false, c) :: rest, ks => (rebuildTable rest ks).map (fun l => ⟨none, c⟩ :: l)
  | (true, _) :: _, [] => none
  | (true, c) :: rest, k :: ks => (rebuildTable rest ks).map (fun l => ⟨some k, c⟩ :: l)

/-- Model of `HT_set_state` (ht_common.c:509) applied to a freshly initialized
counter `ht0`. -/
def set_state (ht0 : HT) (snap : Snapshot) : Option HT :=
  match rebuildTable ((List.range ht0.buckets).map fun i => snap.cells.getD i (false, 0)) snap.keys with
  | none => none
  | some l =>
    some { ht0 with
            total := snap.total
            str_allocated := snap.str_allocated
            size := snap.size
            max_prune := snap.max_prune
            table := fun i => l.getD i ⟨none, 0⟩
            histo := fun b => snap.histo.getD b 0
            hll := snap.hll }

/-- Unpickling: construct via `HT_init` from the recorded bucket count, then
apply `HT_set_state`. -/
def restore (snap : Snapshot) : Option HT :=
  match ht_init (snap.buckets : Int) with
  | .valueError => none
  | .ok ht0 => set_state ht0 snap

end Ops

/-! ## Derived notions used by the verification -/

/-- Cyclic distance from `a` to `b` in a table of `B` buckets (the mathematical
counterpart of the masked `uint32_t` subtractions of the source). -/
def cycDist (B a b : Nat) : Nat := (b + B - a) % B

/-- Well-formedness invariant of a counter state. All reachable states satisfy
it: bucket geometry from `HT_init`, a table and histogram that vanish outside
their C array bounds, non-negative in-range counts, zero counts on empty cells,
the linear-probing chain invariant (every occupied cell is reachable from its
ideal bucket through occupied slots), and the accuracy of `size` and `histo`. -/
structure WF (hash : Nat → Nat) (ht : HT) : Prop where
  pow : ∃ n, 2 ≤ n ∧ n ≤ 31 ∧ ht.buckets = 2 ^ n
  hm : ht.hash_mask = ht.buckets - 1
  offT : ∀ x, ht.buckets ≤ x → ht.table x = ⟨none, 0⟩
  emptyCount : ∀ x, (ht.table x).key = none → (ht.table x).count = 0
  countRange : ∀ x, (ht.table x).key ≠ none →
    0 ≤ (ht.table x).count ∧ (ht.table x).count ≤ LLONG_MAX
  chain : ∀ i < ht.buckets, ∀ k, (ht.table i).key = some k →
    ∀ y < ht.buckets,
      cycDist ht.buckets (hash k &&& ht.hash_mask) y < cycDist ht.buckets (hash k &&& ht.hash_mask) i →
      (ht.table y).key ≠ none
  sizeAcc : ht.size =
    ((Finset.range ht.buckets).filter (fun x => ((ht.table x).key).isSome = true)).card
  histoAcc : ∀ b, ht.histo b = ((Finset.range ht.buckets).filter
    (fun x => ((ht.table x).key).isSome = true ∧ histo_addr (ht.table x).count = b)).card

/-- The probe-chain property exactly as the specification states it: for every
occupied cell at index `i` with ideal bucket `r`, no slot in the cyclic range
`(r, i]` is empty. -/
def ClaimChain (hash : Nat → Nat) (ht : HT) : Prop :=
  ∀ i < ht.buckets, ∀ k, (ht.table i).key = some k →
    ∀ j < ht.buckets,
      1 ≤ cycDist ht.buckets (hash k &&& ht.hash_mask) j →
      cycDist ht.buckets (hash k &&& ht.hash_mask) j ≤
        cycDist ht.buckets (hash k &&& ht.hash_mask) i →
      (ht.table j).key ≠ none

/-- States reachable by the public mutating operations: construction,
increments (with a `long long` delta), sets (with a `long long` value),
deletes, and explicit prunes; automatic prunes happen inside `allocate_cell`
during increments and sets. -/
inductive Reachable (hash klen : Nat → Nat) : HT → Prop where
  | init : ∀ w ht, ht_init w = .ok ht → Reachable hash klen ht
  | inc : ∀ ht k d ht2, Reachable hash klen ht → d ≤ LLONG_MAX →
      increment_obj hash klen ht k d = .ok ht2 → Reachable hash klen ht2
  | set : ∀ ht k v ht2, Reachable hash klen ht → v ≤ LLONG_MAX →
      setitem hash klen ht k v = .ok ht2 → Reachable hash klen ht2
  | del : ∀ ht k ht2, Reachable hash klen ht → delitem hash ht k = some ht2 →
      Reachable hash klen ht2
  | prune : ∀ ht b ht2, Reachable hash klen ht → prune_int hash klen ht b = some ht2 →
      Reachable hash klen ht2

/-- Loop invariant of the prune walk of `HT_prune_int`, after `t` iterations of
the do-while loop over a table of `B` buckets starting after the empty slot
`start`. `tb0` is the table at loop entry; positions are measured by the cyclic
distance from `start`, so the iteration `t` processes the slot at distance
`t + 1` (and the final iteration `t = B - 1` processes `start` itself). -/
structure PruneInv (hash : Nat → Nat) (B start : Nat) (boundary : Int)
    (tb0 : Nat → Cell) (t : Nat) (s : PruneSt) : Prop where
  lfLt : s.last_free < B
  lfU : cycDist B start s.last_free ≤ t
  lfEmpty : (s.table s.last_free).key = none
  unproc : ∀ x, (B ≤ x ∨ x = start ∨ t < cycDist B start x) → s.table x = tb0 x
  between : ∀ x, x < B → cycDist B start s.last_free < cycDist B start x →
      cycDist B start x ≤ t → (s.table x).key ≠ none
  placed : ∀ x, x < B → ∀ k, (s.table x).key = some k → 1 ≤ cycDist B start x →
      cycDist B start x ≤ t →
      boundary < (s.table x).count ∧
      ∀ y, y < B → cycDist B (hash k &&& (B - 1)) y < cycDist B (hash k &&& (B - 1)) x →
        (s.table y).key ≠ none ∧ 1 ≤ cycDist B start y ∧ cycDist B start y ≤ t
  sizeEq : s.size = ((Finset.range B).filter (fun x => 1 ≤ cycDist B start x ∧
      cycDist B start x ≤ t ∧ ((tb0 x).key).isSome = true ∧ boundary < (tb0 x).count)).card
  histoEq : ∀ bin, s.histo bin = ((Finset.range B).filter (fun x => 1 ≤ cycDist B start x ∧
      cycDist B start x ≤ t ∧ ((tb0 x).key).isSome = true ∧ boundary < (tb0 x).count ∧
      histo_addr (tb0 x).count = bin)).card
  cells : Multiset.map s.table ((Finset.range B).filter (fun x => 1 ≤ cycDist B start x ∧
        cycDist B start x ≤ t ∧ ((s.table x).key).isSome = true)).val =
      Multiset.map tb0 ((Finset.range B).filter (fun x => 1 ≤ cycDist B start x ∧
        cycDist B start x ≤ t ∧ ((tb0 x).key).isSome = true ∧ boundary < (tb0 x).count)).val
  emptyZero : ∀ x, (s.table x).key = none → (s.table x).count = 0

/-- Facts established about `HT_prune_int` when it succeeds: the surviving
cells are exactly the prior cells with count above the boundary (as a
multiset), the new size and histogram describe the new table, the probe-chain
invariant holds again, and `total`, `buckets`, `hash_mask` and the sketch are
untouched. -/
structure PruneFacts (hash : Nat → Nat) (ht : HT) (boundary : Int) (ht2 : HT) : Prop where
  survivorsOnly : ∀ x, x < ht2.buckets → (ht2.table x).key ≠ none →
    boundary < (ht2.table x).count
  sizeEq : ht2.size = ((Finset.range ht.buckets).filter
    (fun x => ((ht.table x).key).isSome = true ∧ boundary < (ht.table x).count)).card
  sizeAcc2 : ht2.size = ((Finset.range ht2.buckets).filter
    (fun x => ((ht2.table x).key).isSome = true)).card
  histoAcc2 : ∀ b, ht2.histo b = ((Finset.range ht2.buckets).filter
    (fun x => ((ht2.table x).key).isSome = true ∧ histo_addr (ht2.table x).count = b)).card
  totalEq : ht2.total = ht.total
  bucketsEq : ht2.buckets = ht.buckets
  maskEq : ht2.hash_mask = ht.hash_mask
  hllEq : ht2.hll = ht.hll
  strAl : ht2.str_allocated = ht2.str_allocated
  maxPrune : ht2.max_prune = if ht.max_prune < boundary then boundary else ht.max_prune
  chain2 : ∀ i, i < ht2.buckets → ∀ k, (ht2.table i).key = some k → ∀ y, y < ht2.buckets →
    cycDist ht2.buckets (hash k &&& ht2.hash_mask) y <
      cycDist ht2.buckets (hash k &&& ht2.hash_mask) i →
    (ht2.table y).key ≠ none
  offT2 : ∀ x, ht2.buckets ≤ x → ht2.table x = ht.table x
  empty2 : ∀ x, (ht2.table x).key = none → (ht2.table x).count = 0
  cellsPerm : Multiset.map ht2.table ((Finset.range ht.buckets).filter
      (fun x => ((ht2.table x).key).isSome = true)).val =
    Multiset.map ht.table ((Finset.range ht.buckets).filter
      (fun x => ((ht.table x).key).isSome = true ∧ boundary < (ht.table x).count)).val

/-- Sum of the counts of the cells a `prune(b)` call discards, the quantity the
specification says `total` drops by. Stated from the specification, for
refutation; the source never subtracts it. -/
def specEvictedSum (ht : HT) (b : Int) : Int :=
  ((Finset.range ht.buckets).filter (fun x => ((ht.table x).key).isSome = true ∧
    (ht.table x).count ≤ b)).sum (fun x => (ht.table x).count)

/-! ## Concrete instances used by witnesses and counterexamples -/

/-- Degenerate hash function (everything in bucket 0) for concrete runs. -/
def hash0 : Nat → Nat := fun _ => 0

/-- Degenerate key-length function for concrete runs. -/
def klen0 : Nat → Nat := fun _ => 1

/-- The empty 4-bucket counter, result of `ht_init 4`. -/
def htEx4 : HT :=
  { buckets := 4, hash_mask := 3, str_allocated := 0, total := 0, size := 0
    table := fun _ => ⟨none, 0⟩, histo := fun _ => 0, max_prune := 0, hll := [] }

/-- A 4-bucket counter holding keys 10 and 20 with counts 5 and 7 (under
`hash0` both hash to bucket 0). -/
def htA : HT :=
  { buckets := 4, hash_mask := 3, str_allocated := 4, total := 12, size := 2
    table := fun i => if i = 0 then ⟨some 10, 5⟩ else if i = 1 then ⟨some 20, 7⟩ else ⟨none, 0⟩
    histo := fun b => if b = 5 then 1 else if b = 7 then 1 else 0
    max_prune := 0, hll := [] }

/-- A 4-bucket counter at the 3/4 load threshold whose three occupied cells all
carry counts in histogram bin 255 (at least `0x3C0000000`). -/
def htB : HT :=
  { buckets := 4, hash_mask := 3, str_allocated := 6, total := 3 * 0x3C0000000, size := 3
    table := fun i => if i = 0 then ⟨some 10, 0x3C0000000⟩ else if i = 1 then ⟨some 20, 0x3C0000000⟩
      else if i = 2 then ⟨some 30, 0x3C0000000⟩ else ⟨none, 0⟩
    histo := fun b => if b = 255 then 3 else 0
    max_prune := 0, hll := [] }

/-- A 4-bucket counter holding three zombie cells (count 0), so that the
histogram scan of `HT_prune_size` is satisfied by bin 0 alone. -/
def htZ : HT :=
  { buckets := 4, hash_mask := 3, str_allocated := 6, total := 0, size := 3
    table := fun i => if i = 0 then ⟨some 10, 0⟩ else if i = 1 then ⟨some 20, 0⟩
      else if i = 2 then ⟨some 30, 0⟩ else ⟨none, 0⟩
    histo := fun b => if b = 0 then 3 else 0
    max_prune := 0, hll := [] }

/-- A 4-bucket counter whose single cell already holds `LLONG_MAX`, so any
further increment overflows. -/
def htOv : HT :=
  { buckets := 4, hash_mask := 3, str_allocated := 2, total := LLONG_MAX, size := 1
    table := fun i => if i = 0 then ⟨some 10, LLONG_MAX⟩ else ⟨none, 0⟩
    histo := fun b => if b = 255 then 1 else 0
    max_prune := 0, hll := [] }

/-- Extract the state of a successful increment, for chaining concrete runs. -/
def IncRes.okState : IncRes → Option HT
  | .ok ht => some ht
  | _ => none

/-- Run one increment on an optional state, for chaining concrete runs. -/
def runInc (hash klen : Nat → Nat) (o : Option HT) (k : Nat) (d : Int) : Option HT :=
  o.bind fun ht => (increment_obj hash klen ht k d).okState


/-- Constructor tag of an increment result, for concrete observations. -/
def IncRes.tag : IncRes → Nat
  | .diverge => 0
  | .valueError => 1
  | .overflowError _ => 2
  | .ok _ => 3

/-- The result of pruning `htA` at boundary 10 (both cells evicted). -/
def htA10 : HT := (prune_int hash0 klen0 htA 10).getD htEx4

/-- The result of the automatic prune of `htB` (all three cells kept). -/
def htBp : HT := (prune_int hash0 klen0 htB (prune_size htB)).getD htEx4

/-- The state after one increment of key 0 on the empty 4-bucket counter. -/
def htE1 : HT := ((increment_obj hash0 klen0 htEx4 0 1).okState).getD htEx4

/-! ## Basic arithmetic facts -/

theorem land_two_pow_sub_one (x n : Nat) : x &&& (2 ^ n - 1) = x % 2 ^ n :=
  Nat.and_pow_two_sub_one_eq_mod x n

theorem histoShiftAux_stop (fuel l h : Nat) (hh : ¬ 15 < h) :
    histoShiftAux fuel l h = (l <<< 3) + (h &&& 7) := by
  cases fuel with
  | zero => rfl
  | succ f => simp [histoShiftAux, hh]

theorem histoShiftAux_closed : ∀ h, 16 ≤ h → ∀ l b fuel, 2 ^ (b - 1) ≤ h → h < 2 ^ b →
    b - 4 ≤ fuel → histoShiftAux fuel l h = ((l + (b - 4)) <<< 3) + ((h >>> (b - 4)) &&& 7) := by
  intro h
  induction h using Nat.strong_induction_on with
  | _ h ih =>
    intro h16 l b fuel hb1 hb2 hfuel
    have hb5 : 5 ≤ b := by
      by_contra hb
      have : 2 ^ b ≤ 2 ^ 4 := Nat.pow_le_pow_right (by omega) (by omega)
      omega
    obtain ⟨f, rfl⟩ : ∃ f, fuel = f + 1 := ⟨fuel - 1, by omega⟩
    rw [histoShiftAux, if_pos (by omega)]
    rcases Nat.lt_or_ge h 32 with hc | hc
    · have hbeq : b = 5 := by
        have h1 : 2 ^ (b - 1) ≤ 31 := by omega
        have : b - 1 < 5 := by
          by_contra hb'
          have : 2 ^ 5 ≤ 2 ^ (b - 1) := Nat.pow_le_pow_right (by omega) (by omega)
          omega
        omega
      subst hbeq
      rw [histoShiftAux_stop f (l + 1) (h / 2) (by omega)]
      have hsh : h >>> 1 = h / 2 := by
        simp [Nat.shiftRight_eq_div_pow]
      simp [hsh]
    · have hb6 : 6 ≤ b := by
        by_contra hb
        have : 2 ^ b ≤ 2 ^ 5 := Nat.pow_le_pow_right (by omega) (by omega)
        omega
      have e1 : 2 ^ (b - 1) = 2 ^ (b - 1 - 1) * 2 := by
        rw [← Nat.pow_succ]
        congr 1
        omega
      have e2 : 2 ^ b = 2 ^ (b - 1) * 2 := by
        rw [← Nat.pow_succ]
        congr 1
        omega
      have hrec := ih (h / 2) (by omega) (by omega) (l + 1) (b - 1) f
        ((Nat.le_div_iff_mul_le (by omega)).mpr (by omega))
        ((Nat.div_lt_iff_lt_mul (by omega)).mpr (by omega))
        (by omega)
      rw [hrec]
      have h3 : l + 1 + (b - 1 - 4) = l + (b - 4) := by omega
      have h4 : (h / 2) >>> (b - 1 - 4) = h >>> (b - 4) := by
        have e5 : 2 * 2 ^ (b - 1 - 4) = 2 ^ (b - 4) := by
          have e6 : b - 4 = (b - 1 - 4) + 1 := by omega
          rw [e6, Nat.pow_succ]
          ring
        simp only [Nat.shiftRight_eq_div_pow, Nat.div_div_eq_div_mul, e5]
      rw [h3, h4]

theorem histoShift_closed (h : Nat) (h16 : 16 ≤ h) (l b : Nat) (hb1 : 2 ^ (b - 1) ≤ h)
    (hb2 : h < 2 ^ b) :
    histoShift l h = ((l + (b - 4)) <<< 3) + ((h >>> (b - 4)) &&& 7) := by
  have hble : b - 1 < 2 ^ (b - 1) := Nat.lt_two_pow (b - 1)
  exact histoShiftAux_closed h h16 l b h hb1 hb2 (by omega)

theorem bitlenAux_zero (fuel : Nat) : bitlenAux fuel 0 = 0 := by
  cases fuel with
  | zero => rfl
  | succ f => simp [bitlenAux]

theorem bitlenAux_bounds : ∀ fuel w, 1 ≤ w → w ≤ fuel →
    2 ^ (bitlenAux fuel w - 1) ≤ w ∧ w < 2 ^ bitlenAux fuel w := by
  intro fuel
  induction fuel with
  | zero => omega
  | succ f ih =>
    intro w hw hfw
    rw [bitlenAux, if_neg (by omega)]
    rcases Nat.lt_or_ge w 2 with h2 | h2
    · have hm1 : w = 1 := by omega
      subst hm1
      have e0 : (1 : Nat) / 2 = 0 := by norm_num
      rw [e0, bitlenAux_zero]
      norm_num
    · have hrec := ih (w / 2) (by omega) (by omega)
      have hpos : 1 ≤ bitlenAux f (w / 2) := by
        by_contra hb
        have h0 : bitlenAux f (w / 2) = 0 := by omega
        rw [h0] at hrec
        norm_num at hrec
        omega
      constructor
      · have e1 : bitlenAux f (w / 2) + 1 - 1 = (bitlenAux f (w / 2) - 1) + 1 := by omega
        rw [e1, Nat.pow_succ]
        omega
      · rw [Nat.pow_succ]
        omega

theorem bitlen_bounds (m : Nat) (hm : 1 ≤ m) :
    2 ^ (bitlen m - 1) ≤ m ∧ m < 2 ^ bitlen m :=
  bitlenAux_bounds m m hm le_rfl

theorem histo_addr_mid (c b : Nat) (h16 : 16 ≤ c) (hhi : c < 0x3C0000000)
    (hb1 : 2 ^ (b - 1) ≤ c) (hb2 : c < 2 ^ b) :
    histo_addr (c : Int) = (b - 3) * 8 + ((c >>> (b - 4)) &&& 7) := by
  have hb5 : 5 ≤ b := by
    by_contra hb
    have : 2 ^ b ≤ 2 ^ 4 := Nat.pow_le_pow_right (by omega) (by omega)
    omega
  unfold histo_addr
  rw [if_neg (by omega), if_neg (by push_cast [Int.not_lt]; omega),
      if_neg (by push_cast [Int.not_le]; omega)]
  have hc : (c : Int).toNat = c := Int.toNat_natCast c
  rw [hc, histoShift_closed c h16 1 b hb1 hb2]
  have : (1 + (b - 4)) <<< 3 = (b - 3) * 8 := by
    rw [Nat.shiftLeft_eq]
    omega
  rw [this]

theorem histo_addr_low (c : Nat) (h : c < 16) : histo_addr (c : Int) = c := by
  unfold histo_addr
  rw [if_neg (by omega), if_pos (by push_cast; omega)]
  exact Int.toNat_natCast c

theorem histo_addr_high (v : Int) (h : 0x3C0000000 ≤ v) : histo_addr v = 255 := by
  unfold histo_addr
  rw [if_neg (by omega), if_neg (by omega), if_pos h]

theorem histo_addr_lt_256 (v : Int) : histo_addr v < 256 := by
  unfold histo_addr
  split
  · omega
  · split
    · next h0 h16 =>
      have : v.toNat < 16 := by omega
      omega
    · split
      · omega
      · next h0 h16 hhi =>
        have h16' : (16 : Nat) ≤ v.toNat := by omega
        have hv1 : 1 ≤ v.toNat := by omega
        obtain ⟨hbl, hbu⟩ := bitlen_bounds v.toNat hv1
        have hb34 : bitlen v.toNat ≤ 34 := by
          by_contra hb
          have h34 : 2 ^ 34 ≤ 2 ^ (bitlen v.toNat - 1) := Nat.pow_le_pow_right (by omega) (by omega)
          have h34' : (2 : Nat) ^ 34 ≤ v.toNat := le_trans h34 hbl
          have hvN : v.toNat < 16106127360 := by omega
          norm_num at h34'
          omega
        rw [histoShift_closed v.toNat h16' 1 (bitlen v.toNat) hbl hbu]
        have ha : (v.toNat >>> (bitlen v.toNat - 4)) &&& 7 ≤ 7 := Nat.and_le_right
        have hs : (1 + (bitlen v.toNat - 4)) <<< 3 ≤ 31 * 8 := by
          rw [Nat.shiftLeft_eq]
          have : 1 + (bitlen v.toNat - 4) ≤ 31 := by omega
          omega
        omega

/-! ## Claim C3: the histogram binning function -/

/-- C3, counterexample: at count 16 (bit length 5) the code's bin is 16, while
the claimed formula `b*8 + ((c >> (b-4)) & 7)` gives 40. -/
theorem c3_bin_formula_counterexample :
    2 ^ (5 - 1) ≤ 16 ∧ 16 < 2 ^ 5 ∧ (16 : Int) < 0x3C0000000 ∧
    histo_addr (16 : Int) = 16 ∧ 5 * 8 + ((16 >>> (5 - 4)) &&& 7) = 40 ∧ (16 : Nat) ≠ 40 := by
  decide

/-- C3, amended: the bin of `c` is `c` itself for `0 ≤ c ≤ 15`, bin 255 for
`c ≥ 0x3C0000000`, and otherwise `(b-3)*8 + ((c >> (b-4)) & 7)` where `b` is
the bit length of `c` (the claim said `b*8 + ...`, which is off by 24). -/
theorem c3_bin_formula (c b : Nat) (h16 : 16 ≤ c) (hhi : c < 0x3C0000000)
    (hb1 : 2 ^ (b - 1) ≤ c) (hb2 : c < 2 ^ b) :
    histo_addr (c : Int) = (b - 3) * 8 + ((c >>> (b - 4)) &&& 7) ∧
    (∀ c2 : Nat, c2 ≤ 15 → histo_addr (c2 : Int) = c2) ∧
    (∀ v : Int, 0x3C0000000 ≤ v → histo_addr v = 255) :=
  ⟨histo_addr_mid c b h16 hhi hb1 hb2,
   fun c2 h => histo_addr_low c2 (by omega),
   histo_addr_high⟩

/-- C3, witness at count 100 (bit length 7): the amended theorem applies and
all hypotheses hold. -/
theorem c3_bin_formula_witness :
    (16 ≤ 100 ∧ 100 < 0x3C0000000 ∧ 2 ^ (7 - 1) ≤ 100 ∧ 100 < 2 ^ 7) ∧
    (histo_addr (100 : Int) = (7 - 3) * 8 + ((100 >>> (7 - 4)) &&& 7) ∧
     (∀ c2 : Nat, c2 ≤ 15 → histo_addr (c2 : Int) = c2) ∧
     (∀ v : Int, 0x3C0000000 ≤ v → histo_addr v = 255)) :=
  ⟨by decide, c3_bin_formula 100 7 (by decide) (by decide) (by decide) (by decide)⟩

/-! ## Claim C8: construction -/

/-- C8, amended: construction succeeds exactly for `4 ≤ w ≤ 2^32 - 1` (the
claim allowed `w = 2^32`, which the code rejects), the capacity is the largest
power of two that is at most `w`, and `w < 4` fails with a value error. -/
theorem c8_init_buckets (w : Int) (h4 : 4 ≤ w) (hmax : w ≤ 0xFFFFFFFF) :
    (∃ ht, ht_init w = .ok ht ∧ buckets_obs ht = 2 ^ (bitlen w.toNat - 1) ∧
      (buckets_obs ht : Int) ≤ w ∧ w < 2 * (buckets_obs ht : Int)) ∧
    (∀ v : Int, v < 4 → ht_init v = .valueError) ∧
    (∀ v : Int, 0xFFFFFFFF < v → ht_init v = .valueError) := by
  refine ⟨?_, ?_, ?_⟩
  · rw [ht_init, if_neg (by omega), if_neg (by omega)]
    refine ⟨_, rfl, ?_, ?_, ?_⟩
    · simp [buckets_obs, Nat.shiftLeft_eq]
    · obtain ⟨hl, hu⟩ := bitlen_bounds w.toNat (by omega)
      simp only [buckets_obs, Nat.shiftLeft_eq, one_mul]
      have : ((2 : Nat) ^ (bitlen w.toNat - 1) : Int) ≤ (w.toNat : Int) := by
        exact_mod_cast hl
      omega
    · obtain ⟨hl, hu⟩ := bitlen_bounds w.toNat (by omega)
      have hb1 : 1 ≤ bitlen w.toNat := by
        by_contra hb
        have h0 : bitlen w.toNat = 0 := by omega
        rw [h0] at hu
        norm_num at hu
        omega
      have he : 2 ^ bitlen w.toNat = 2 * 2 ^ (bitlen w.toNat - 1) := by
        rw [← pow_succ']
        congr 1
        omega
      rw [he] at hu
      simp only [buckets_obs, Nat.shiftLeft_eq, one_mul]
      have : (w.toNat : Int) < 2 * ((2 : Nat) ^ (bitlen w.toNat - 1) : Int) := by
        exact_mod_cast hu
      omega
  · intro v hv
    rw [ht_init, if_pos hv]
  · intro v hv
    rw [ht_init, if_neg (by omega), if_pos hv]

/-- C8, counterexample: `2^32` is inside the claimed success range but the code
raises a value error for it. -/
theorem c8_init_counterexample :
    (4 : Int) ≤ 2 ^ 32 ∧ ht_init ((2 : Int) ^ 32) = .valueError := by
  constructor
  · norm_num
  · rw [ht_init, if_neg (by norm_num), if_pos (by norm_num)]

/-- C8, witness at `w = 10`: construction succeeds with 8 buckets. -/
theorem c8_init_witness :
    ((4 : Int) ≤ 10 ∧ (10 : Int) ≤ 0xFFFFFFFF) ∧
    ((∃ ht, ht_init 10 = .ok ht ∧ buckets_obs ht = 2 ^ (bitlen (10 : Int).toNat - 1) ∧
      (buckets_obs ht : Int) ≤ 10 ∧ (10 : Int) < 2 * (buckets_obs ht : Int)) ∧
     (∀ v : Int, v < 4 → ht_init v = .valueError) ∧
     (∀ v : Int, 0xFFFFFFFF < v → ht_init v = .valueError)) :=
  ⟨by constructor <;> decide, c8_init_buckets 10 (by decide) (by decide)⟩

/-! ## Claim C4: the automatic prune boundary -/

theorem sum_histo_mono (histo : Nat → Nat) {a b : Nat} (h : a ≤ b) :
    (∑ x ∈ Finset.range a, histo x) ≤ ∑ x ∈ Finset.range b, histo x :=
  Finset.sum_le_sum_of_subset (Finset.range_subset.mpr h)

theorem prune_scanAux_found (histo : Nat → Nat) (required k : Nat)
    (hk : k ≤ 255) (hge : required ≤ ∑ b ∈ Finset.range k, histo b)
    (hmin : ∀ j, j < k → (∑ b ∈ Finset.range j, histo b) < required)
    (hU : (∑ b ∈ Finset.range 255, histo b) < U32) :
    ∀ fuel index, index ≤ k → 255 - index ≤ fuel →
      prune_scanAux histo required fuel (∑ b ∈ Finset.range index, histo b) index = k := by
  intro fuel
  induction fuel with
  | zero =>
    intro index hik hf
    have h1 : index = 255 := by omega
    have h2 : index = k := by omega
    simp [prune_scanAux, h2]
  | succ f ih =>
    intro index hik hf
    rcases Nat.eq_or_lt_of_le hik with heq | hlt
    · subst heq
      rw [prune_scanAux, if_neg (by
        rintro ⟨h1, h2⟩
        omega)]
    · rw [prune_scanAux, if_pos ⟨hmin index hlt, by omega⟩]
      have e1 : ((∑ b ∈ Finset.range index, histo b) + histo index) % U32 =
          ∑ b ∈ Finset.range (index + 1), histo b := by
        rw [← Finset.sum_range_succ]
        exact Nat.mod_eq_of_lt (lt_of_le_of_lt (sum_histo_mono histo (by omega)) hU)
      rw [e1]
      exact ih (index + 1) (by omega) (by omega)

theorem prune_scanAux_notfound (histo : Nat → Nat) (required : Nat)
    (hreq : required ≤ U32)
    (hlt : (∑ b ∈ Finset.range 255, histo b) < required) :
    ∀ fuel index, index ≤ 255 → 255 - index ≤ fuel →
      prune_scanAux histo required fuel (∑ b ∈ Finset.range index, histo b) index = 255 := by
  intro fuel
  induction fuel with
  | zero =>
    intro index h255 hf
    have h1 : index = 255 := by omega
    simp [prune_scanAux, h1]
  | succ f ih =>
    intro index h255 hf
    rcases Nat.eq_or_lt_of_le h255 with heq | hlt2
    · subst heq
      rw [prune_scanAux, if_neg (by
        rintro ⟨h1, h2⟩
        omega)]
    · rw [prune_scanAux, if_pos ⟨lt_of_le_of_lt (sum_histo_mono histo (by omega)) hlt, hlt2⟩]
      have e1 : ((∑ b ∈ Finset.range index, histo b) + histo index) % U32 =
          ∑ b ∈ Finset.range (index + 1), histo b := by
        rw [← Finset.sum_range_succ]
        have hU : (∑ b ∈ Finset.range 255, histo b) < U32 := by omega
        exact Nat.mod_eq_of_lt (lt_of_le_of_lt (sum_histo_mono histo (by omega)) hU)
      rw [e1]
      exact ih (index + 1) (by omega) (by omega)

/-- C4, amended: when `k < 255` is the smallest bin index with
`histo[0]+...+histo[k] ≥ size - B/2`, the boundary is the lower edge of bin
`k+1` minus 1 (i.e. the upper edge of bin `k`), not the lower edge of bin `k`
minus 1 as claimed. -/
theorem c4_prune_boundary (ht : HT) (k : Nat) (hk : k < 255)
    (h0 : 0 < sub32 ht.size (ht.buckets >>> 1))
    (hge : sub32 ht.size (ht.buckets >>> 1) ≤ ∑ b ∈ Finset.range (k + 1), ht.histo b)
    (hmin : ∀ j, j < k →
      (∑ b ∈ Finset.range (j + 1), ht.histo b) < sub32 ht.size (ht.buckets >>> 1))
    (hU : (∑ b ∈ Finset.range 255, ht.histo b) < U32) :
    prune_size ht = (bin_edge (k + 1) : Int) - 1 := by
  have hgoal : prune_size ht =
      (bin_edge (prune_scanAux ht.histo (sub32 ht.size (ht.buckets >>> 1)) 255 0 0) : Int) - 1 :=
    rfl
  rw [hgoal]
  have hscan := prune_scanAux_found ht.histo (sub32 ht.size (ht.buckets >>> 1)) (k + 1)
    (by omega) hge
    (by
      intro j hj
      match j with
      | 0 => simpa using h0
      | j + 1 => exact hmin j (by omega))
    hU 255 0 (by omega) (by omega)
  simp only [Finset.range_zero, Finset.sum_empty] at hscan
  rw [hscan]

/-- C4, counterexample: with three zombie cells in 4 buckets the smallest
qualifying bin index is `k = 0`, the claimed boundary is `-1`, but the code
returns `0`. -/
theorem c4_prune_boundary_counterexample :
    sub32 htZ.size (htZ.buckets >>> 1) = 1 ∧ 1 ≤ htZ.histo 0 ∧
    prune_size htZ = 0 ∧ (bin_edge 0 : Int) - 1 = -1 ∧ (0 : Int) ≠ -1 := by
  refine ⟨by decide, by decide, by decide, by decide, by decide⟩

/-- C4, witness: the amended theorem applied to the three-zombie counter with
`k = 0` gives boundary `bin_edge 1 - 1 = 0`. -/
theorem c4_prune_boundary_witness :
    (0 < sub32 htZ.size (htZ.buckets >>> 1) ∧
     sub32 htZ.size (htZ.buckets >>> 1) ≤ ∑ b ∈ Finset.range 1, htZ.histo b ∧
     (∑ b ∈ Finset.range 255, htZ.histo b) < U32) ∧
    prune_size htZ = (bin_edge 1 : Int) - 1 :=
  ⟨⟨by decide, by decide, by decide⟩,
   c4_prune_boundary htZ 0 (by decide) (by decide) (by decide)
     (by omega) (by decide)⟩

/-! ## Claim C6: increment error handling -/

theorem probe_stop_key (table : Nat → Cell) (mask k : Nat) :
    ∀ fuel b i, probe table mask k fuel b = some i →
      (table i).key = none ∨ (table i).key = some k := by
  intro fuel
  induction fuel with
  | zero => intro b i h; simp [probe] at h
  | succ f ih =>
    intro b i h
    rw [probe] at h
    split at h
    · next heq =>
      injection h with h2
      subst h2
      exact Or.inl heq
    · next k2 heq =>
      split at h
      · next hk2 =>
        injection h with h2
        subst h2
        subst hk2
        exact Or.inr heq
      · exact ih _ _ h

section OpProofs

variable (hash klen : Nat → Nat)

theorem find_cell_true_eq (ht : HT) (k : Nat) (ht1 : HT) (i : Nat)
    (h : find_cell hash ht k true = some (ht1, i)) :
    ht1 = { ht with hll := ht.hll ++ [hash k] } ∧
    probe ht.table ht.hash_mask k ht.buckets (hash k &&& ht.hash_mask) = some i := by
  rw [find_cell, ht_bucket] at h
  simp only [if_true] at h
  split at h
  · exact absurd h (by simp)
  · next j hp =>
    injection h with h1
    have e1 : ht1 = { ht with hll := ht.hll ++ [hash k] } := (congrArg Prod.fst h1).symm
    have e2 : j = i := congrArg Prod.snd h1
    subst e2
    exact ⟨e1, hp⟩

theorem find_cell_false_eq (ht : HT) (k : Nat) (ht1 : HT) (i : Nat)
    (h : find_cell hash ht k false = some (ht1, i)) :
    ht1 = ht ∧
    probe ht.table ht.hash_mask k ht.buckets (hash k &&& ht.hash_mask) = some i := by
  rw [find_cell, ht_bucket] at h
  simp only [if_false] at h
  split at h
  · exact absurd h (by simp)
  · next j hp =>
    injection h with h1
    have e1 : ht1 = ht := (congrArg Prod.fst h1).symm
    have e2 : j = i := congrArg Prod.snd h1
    subst e2
    exact ⟨e1, hp⟩

theorem allocate_occupied (ht : HT) (k : Nat) (ht1 : HT) (i : Nat)
    (h : allocate_cell hash klen ht k = some (ht1, i))
    (hc : (ht1.table i).count ≠ 0) :
    ht1.table = ht.table ∧ ht1.histo = ht.histo ∧ ht1.total = ht.total ∧
    ht1.size = ht.size ∧ ht1.str_allocated = ht.str_allocated ∧
    ht1.max_prune = ht.max_prune ∧ ht1.buckets = ht.buckets ∧
    ht1.hash_mask = ht.hash_mask ∧ ht1.hll = ht.hll ++ [hash k] ∧
    (ht.table i).key = some k := by
  rw [allocate_cell] at h
  split at h
  · exact absurd h (by simp)
  · next ht1x ix hfind =>
    obtain ⟨hx1, hp⟩ := find_cell_true_eq hash ht k ht1x ix hfind
    subst hx1
    dsimp only at h
    split at h
    · next k2 hkey =>
      simp only [Option.some.injEq] at h
      have h1 : ht1 = { ht with hll := ht.hll ++ [hash k] } := (congrArg Prod.fst h).symm
      have h2 : i = ix := (congrArg Prod.snd h).symm
      subst h1
      subst h2
      rcases probe_stop_key ht.table ht.hash_mask k ht.buckets _ _ hp with hn | hs
      · rw [hn] at hkey
        simp at hkey
      · exact ⟨rfl, rfl, rfl, rfl, rfl, rfl, rfl, rfl, rfl, hs⟩
    · next hkey =>
      split at h
      · exact absurd h (by simp)
      · next ht2b j hstep =>
        simp only [Option.some.injEq] at h
        exfalso
        apply hc
        have h2 : i = j := (congrArg Prod.snd h).symm
        have h1 := congrArg Prod.fst h
        dsimp only at h1
        rw [← h1, h2]
        simp

/-- C6: increment rejects negative deltas with a value error, succeeds with no
side effect on delta 0, and on 64-bit overflow raises an overflow error leaving
table, histogram, total and size unchanged; the overflowing cell is always a
pre-existing cell of the key (a newly allocated cell has count 0 and cannot
overflow), so no zombie is created on this path. -/
theorem c6_increment_errors (ht : HT) (k : Nat) (d : Int) (hd : d ≤ LLONG_MAX) :
    (d < 0 → increment_obj hash klen ht k d = .valueError) ∧
    (d = 0 → increment_obj hash klen ht k d = .ok ht) ∧
    (∀ ht2, increment_obj hash klen ht k d = .overflowError ht2 →
      ht2.table = ht.table ∧ ht2.histo = ht.histo ∧ ht2.total = ht.total ∧
      ht2.size = ht.size ∧ ht2.max_prune = ht.max_prune ∧ ht2.hll = ht.hll ++ [hash k] ∧
      ∃ i, (ht.table i).key = some k ∧ LLONG_MAX - d < (ht.table i).count) := by
  refine ⟨?_, ?_, ?_⟩
  · intro hneg
    rw [increment_obj, if_pos hneg]
  · intro h0
    rw [increment_obj, if_neg (by omega), if_pos h0]
  · intro ht2 h
    rw [increment_obj] at h
    split at h
    · exact absurd h (by simp)
    · split at h
      · exact absurd h (by simp)
      · split at h
        · exact absurd h (by simp)
        · next hta i halloc =>
          split at h
          · next hovf =>
            injection h with h1
            rw [← h1]
            have hcne : (hta.table i).count ≠ 0 := by
              intro hc0
              rw [hc0] at hovf
              omega
            obtain ⟨e1, e2, e3, e4, e5, e6, e7, e8, e9, e10⟩ :=
              allocate_occupied hash klen ht k hta i halloc hcne
            rw [e1] at hovf
            exact ⟨e1, e2, e3, e4, e6, e9, i, e10, hovf⟩
          · exact absurd h (by simp)

end OpProofs

/-- C6, witness: a 4-bucket counter whose only cell already holds `LLONG_MAX`
overflows on `increment(10, 1)` and the state predicates of the theorem hold
for it. -/
theorem c6_increment_errors_witness :
    (1 : Int) ≤ LLONG_MAX ∧ (increment_obj hash0 klen0 htOv 10 1).tag = 2 ∧
    (∀ ht2, increment_obj hash0 klen0 htOv 10 1 = .overflowError ht2 →
      ht2.table = htOv.table ∧ ht2.histo = htOv.histo ∧ ht2.total = htOv.total ∧
      ht2.size = htOv.size ∧ ht2.max_prune = htOv.max_prune ∧
      ht2.hll = htOv.hll ++ [hash0 10] ∧
      ∃ i, (htOv.table i).key = some 10 ∧ LLONG_MAX - 1 < (htOv.table i).count) :=
  ⟨by decide, by decide, (c6_increment_errors hash0 klen0 htOv 10 1 (by decide)).2.2⟩

/-! ## Cyclic-distance toolkit -/

theorem cycDist_closed (B a b : Nat) (ha : a < B) (hb : b < B) :
    cycDist B a b = if a ≤ b then b - a else B + b - a := by
  unfold cycDist
  rcases le_or_lt a b with h | h
  · rw [if_pos h]
    have e : b + B - a = B + (b - a) := by omega
    rw [e, Nat.add_mod_left]
    exact Nat.mod_eq_of_lt (by omega)
  · rw [if_neg (by omega)]
    have e : b + B - a = B + b - a := by omega
    rw [e]
    exact Nat.mod_eq_of_lt (by omega)

theorem cycDist_cases (B a b : Nat) (ha : a < B) (hb : b < B) :
    (a ≤ b ∧ cycDist B a b = b - a) ∨ (b < a ∧ cycDist B a b = B + b - a) := by
  rcases le_or_lt a b with h | h
  · exact Or.inl ⟨h, by rw [cycDist_closed B a b ha hb, if_pos h]⟩
  · exact Or.inr ⟨h, by rw [cycDist_closed B a b ha hb, if_neg (by omega)]⟩

theorem cycDist_lt (B a b : Nat) (hB : 0 < B) : cycDist B a b < B :=
  Nat.mod_lt _ hB

theorem cycDist_self (B a : Nat) : cycDist B a a = 0 := by
  unfold cycDist
  have e : a + B - a = B := by omega
  rw [e, Nat.mod_self]

theorem cycDist_inj (B s x y : Nat) (hs : s < B) (hx : x < B) (hy : y < B)
    (h : cycDist B s x = cycDist B s y) : x = y := by
  rcases cycDist_cases B s x hs hx with ⟨h1, e1⟩ | ⟨h1, e1⟩ <;>
    rcases cycDist_cases B s y hs hy with ⟨h2, e2⟩ | ⟨h2, e2⟩ <;> omega

theorem cycDist_zero_iff (B s x : Nat) (hs : s < B) (hx : x < B) :
    cycDist B s x = 0 ↔ x = s := by
  constructor
  · intro h
    exact cycDist_inj B s x s hs hx hs (by rw [h, cycDist_self])
  · intro h
    rw [h, cycDist_self]

theorem cycDist_add_mod (B s m : Nat) (hs : s < B) :
    cycDist B s ((s + m) % B) = m % B := by
  unfold cycDist
  have hB : 0 < B := by omega
  have h1 : (s + m) % B + B - s = (s + m) % B + (B - s) := by omega
  rw [h1, Nat.mod_add_mod, show s + m + (B - s) = m + B by omega, Nat.add_mod_right]

theorem cycDist_le_of_le (B s x y : Nat) (hs : s < B) (hx : x < B) (hy : y < B)
    (h : cycDist B s x ≤ cycDist B s y) :
    cycDist B x y = cycDist B s y - cycDist B s x := by
  rcases cycDist_cases B s x hs hx with ⟨h1, e1⟩ | ⟨h1, e1⟩ <;>
    rcases cycDist_cases B s y hs hy with ⟨h2, e2⟩ | ⟨h2, e2⟩ <;>
      rcases cycDist_cases B x y hx hy with ⟨h3, e3⟩ | ⟨h3, e3⟩ <;> omega

theorem cycDist_step (B r y : Nat) (hr : r < B) (hy : y < B) (hne : y ≠ r) :
    cycDist B r y = cycDist B ((r + 1) % B) y + 1 := by
  have hB : 0 < B := by omega
  have hr1 : (r + 1) % B < B := Nat.mod_lt _ hB
  rcases Nat.lt_or_ge (r + 1) B with hlt | hge
  · have e : (r + 1) % B = r + 1 := Nat.mod_eq_of_lt hlt
    rw [e]
    rcases cycDist_cases B r y hr hy with ⟨h1, e1⟩ | ⟨h1, e1⟩ <;>
      rcases cycDist_cases B (r + 1) y (by omega) hy with ⟨h2, e2⟩ | ⟨h2, e2⟩ <;> omega
  · have hrB : r = B - 1 := by omega
    have e : (r + 1) % B = 0 := by
      subst hrB
      rw [show B - 1 + 1 = B by omega, Nat.mod_self]
    rw [e]
    rcases cycDist_cases B r y hr hy with ⟨h1, e1⟩ | ⟨h1, e1⟩ <;>
      rcases cycDist_cases B 0 y (by omega) hy with ⟨h2, e2⟩ | ⟨h2, e2⟩ <;> omega

theorem land_mask_mod (x n : Nat) (B : Nat) (hB : B = 2 ^ n) :
    x &&& (B - 1) = x % B := by
  subst hB
  exact land_two_pow_sub_one x n

theorem cdist_eq_cycDist (n B a b : Nat) (hB : B = 2 ^ n) (hn : n ≤ 32)
    (ha : a < B) (hb : b < B) : cdist (B - 1) a b = cycDist B a b := by
  unfold cdist cycDist
  rw [land_mask_mod _ n B hB]
  have hBU : B ∣ U32 := by
    rw [hB, show U32 = 2 ^ 32 from rfl]
    exact pow_dvd_pow 2 hn
  rw [Nat.mod_mod_of_dvd _ hBU]
  have hBle : B ≤ U32 := Nat.le_of_dvd (by norm_num [U32]) hBU
  obtain ⟨c, hc⟩ := hBU
  have e : b + (U32 - a) = (b + B - a) + B * (c - 1) := by
    have hc1 : 1 ≤ c := by
      rcases Nat.eq_zero_or_pos c with h0 | h1
      · rw [h0, Nat.mul_zero] at hc
        norm_num [U32] at hc
      · exact h1
    have : B * c = B * (c - 1) + B := by
      rw [Nat.mul_sub_one]
      have hBc : B ≤ B * c := Nat.le_mul_of_pos_right B hc1
      omega
    omega
  rw [e, Nat.add_mul_mod_self_left]

/-! ## Probe path lemmas -/

theorem findStart_spec (table : Nat → Cell) :
    ∀ fuel s0 s, findStart table fuel s0 = some s →
      (table s).key = none ∧ s0 ≤ s ∧ s < s0 + fuel := by
  intro fuel
  induction fuel with
  | zero => intro s0 s h; simp [findStart] at h
  | succ f ih =>
    intro s0 s h
    rw [findStart] at h
    split at h
    · next he =>
      injection h with h1
      subst h1
      exact ⟨he, le_rfl, by omega⟩
    · obtain ⟨h1, h2, h3⟩ := ih (s0 + 1) s h
      exact ⟨h1, by omega, by omega⟩

theorem findReplace_self (table : Nat → Cell) (mask i : Nat) :
    ∀ fuel, findReplace table mask i fuel i = i := by
  intro fuel
  cases fuel with
  | zero => rfl
  | succ f => simp [findReplace]

theorem findReplace_found (n B : Nat) (hB : B = 2 ^ n) (hn : n ≤ 32)
    (table : Nat → Cell) (i e : Nat) (hi : i < B) (he : e < B)
    (hee : (table e).key = none) :
    ∀ fuel r, r < B → cycDist B r e < cycDist B r i → cycDist B r e < fuel →
      findReplace table (B - 1) i fuel r < B ∧
      (table (findReplace table (B - 1) i fuel r)).key = none ∧
      cycDist B r (findReplace table (B - 1) i fuel r) ≤ cycDist B r e ∧
      ∀ y, y < B → cycDist B r y < cycDist B r (findReplace table (B - 1) i fuel r) →
        (table y).key ≠ none := by
  intro fuel
  induction fuel with
  | zero => intro r hr hre hfe; omega
  | succ f ih =>
    intro r hr hre hfe
    have hB0 : 0 < B := by
      rw [hB]
      positivity
    have hri : r ≠ i := by
      intro hcon
      rw [hcon, cycDist_self] at hre
      omega
    rw [findReplace, if_neg hri]
    rcases hkey : (table r).key with _ | k2
    · refine ⟨hr, hkey, ?_, ?_⟩
      · rw [cycDist_self]
        omega
      · intro y hy hlt
        rw [cycDist_self] at hlt
        omega
    · dsimp only
      have hre0 : r ≠ e := by
        intro hcon
        rw [← hcon, hkey] at hee
        simp at hee
      have hstep_e : cycDist B r e = cycDist B ((r + 1) % B) e + 1 :=
        cycDist_step B r e hr he (by omega)
      have hstep_i : cycDist B r i = cycDist B ((r + 1) % B) i + 1 :=
        cycDist_step B r i hr hi (by omega)
      have hmask : (r + 1) &&& (B - 1) = (r + 1) % B := land_mask_mod _ n B hB
      rw [hmask]
      have hr1 : (r + 1) % B < B := Nat.mod_lt _ hB0
      obtain ⟨q1, q2, q3, q4⟩ := ih ((r + 1) % B) hr1 (by omega) (by omega)
      set j := findReplace table (B - 1) i f ((r + 1) % B) with hj
      have hjr : j ≠ r := by
        intro hcon
        rw [hcon, hkey] at q2
        simp at q2
      have hstep_j : cycDist B r j = cycDist B ((r + 1) % B) j + 1 :=
        cycDist_step B r j hr q1 hjr
      refine ⟨q1, q2, by omega, ?_⟩
      intro y hy hlt
      by_cases hyr : y = r
      · rw [hyr, hkey]
        simp
      · have hstep_y : cycDist B r y = cycDist B ((r + 1) % B) y + 1 :=
          cycDist_step B r y hr hy hyr
        exact q4 y hy (by omega)

theorem probe_path (n B : Nat) (hB : B = 2 ^ n) (hn : n ≤ 32)
    (table : Nat → Cell) (k : Nat) :
    ∀ fuel r j, r < B → probe table (B - 1) k fuel r = some j →
      j < B ∧ ((table j).key = none ∨ (table j).key = some k) ∧
      ∀ y, y < B → cycDist B r y < cycDist B r j →
        (table y).key ≠ none ∧ (table y).key ≠ some k := by
  intro fuel
  induction fuel with
  | zero =>
    intro r j hr h
    rw [probe.eq_def] at h
    exact absurd h (by simp)
  | succ f ih =>
    intro r j hr h
    have hB0 : 0 < B := by
      rw [hB]
      positivity
    rw [probe] at h
    split at h
    · next heq =>
      injection h with h1
      subst h1
      refine ⟨hr, Or.inl heq, ?_⟩
      intro y hy hlt
      rw [cycDist_self] at hlt
      omega
    · next k2 heq =>
      split at h
      · next hk2 =>
        injection h with h1
        subst h1
        subst hk2
        refine ⟨hr, Or.inr heq, ?_⟩
        intro y hy hlt
        rw [cycDist_self] at hlt
        omega
      · next hk2 =>
        have hmask : (r + 1) &&& (B - 1) = (r + 1) % B := land_mask_mod _ n B hB
        rw [hmask] at h
        have hr1 : (r + 1) % B < B := Nat.mod_lt _ hB0
        obtain ⟨q1, q2, q3⟩ := ih ((r + 1) % B) j hr1 h
        have hjr : j ≠ r := by
          intro hcon
          subst hcon
          rcases q2 with hq | hq
          · rw [hq] at heq
            simp at heq
          · rw [hq] at heq
            injection heq with heq2
            exact hk2 heq2.symm
        have hstep_j : cycDist B r j = cycDist B ((r + 1) % B) j + 1 :=
          cycDist_step B r j hr q1 hjr
        refine ⟨q1, q2, ?_⟩
        intro y hy hlt
        by_cases hyr : y = r
        · subst hyr
          rw [heq]
          refine ⟨by simp, ?_⟩
          intro hcon
          injection hcon with hcon2
          exact hk2 hcon2
        · have hstep_y : cycDist B r y = cycDist B ((r + 1) % B) y + 1 :=
            cycDist_step B r y hr hy hyr
          exact q3 y hy (by omega)

theorem cycDist_u_cases (B s x y : Nat) (hs : s < B) (hx : x < B) (hy : y < B) :
    (cycDist B s x ≤ cycDist B s y ∧ cycDist B x y = cycDist B s y - cycDist B s x) ∨
    (cycDist B s y < cycDist B s x ∧
      cycDist B x y = B + cycDist B s y - cycDist B s x) := by
  have c1 := cycDist_cases B s x hs hx
  have c2 := cycDist_cases B s y hs hy
  have c3 := cycDist_cases B x y hx hy
  omega

/-! ## Prune loop: helpers -/
section FiltersAndSteps

theorem range_filter_succ_t (B start t i : Nat) (hstart : start < B) (hiB : i < B)
    (hui : cycDist B start i = t + 1) (P : Nat → Prop) [DecidablePred P] :
    (Finset.range B).filter
        (fun x => 1 ≤ cycDist B start x ∧ cycDist B start x ≤ t + 1 ∧ P x) =
      if P i then
        insert i ((Finset.range B).filter
          (fun x => 1 ≤ cycDist B start x ∧ cycDist B start x ≤ t ∧ P x))
      else (Finset.range B).filter
        (fun x => 1 ≤ cycDist B start x ∧ cycDist B start x ≤ t ∧ P x) := by
  by_cases hP : P i
  · rw [if_pos hP]
    ext x
    simp only [Finset.mem_filter, Finset.mem_insert, Finset.mem_range]
    constructor
    · rintro ⟨hx, h1, h2, h3⟩
      rcases Nat.lt_or_ge (cycDist B start x) (t + 1) with hlt | hge
      · exact Or.inr ⟨hx, h1, by omega, h3⟩
      · exact Or.inl (cycDist_inj B start x i hstart hx hiB (by omega))
    · rintro (rfl | ⟨hx, h1, h2, h3⟩)
      · exact ⟨hiB, by omega, by omega, hP⟩
      · exact ⟨hx, h1, by omega, h3⟩
  · rw [if_neg hP]
    ext x
    simp only [Finset.mem_filter, Finset.mem_range]
    constructor
    · rintro ⟨hx, h1, h2, h3⟩
      have hxi : x ≠ i := by
        rintro rfl
        exact hP h3
      have hne : cycDist B start x ≠ t + 1 := fun he =>
        hxi (cycDist_inj B start x i hstart hx hiB (by omega))
      exact ⟨hx, h1, by omega, h3⟩
    · rintro ⟨hx, h1, h2, h3⟩
      exact ⟨hx, h1, by omega, h3⟩

theorem not_mem_filter_t (B start t i : Nat) (hui : cycDist B start i = t + 1)
    (P : Nat → Prop) [DecidablePred P] :
    i ∉ (Finset.range B).filter
      (fun x => 1 ≤ cycDist B start x ∧ cycDist B start x ≤ t ∧ P x) := by
  simp only [Finset.mem_filter, Finset.mem_range]
  rintro ⟨_, _, h2, _⟩
  omega

theorem filter_card_le_B (B : Nat) (P : Nat → Prop) [DecidablePred P] :
    ((Finset.range B).filter P).card ≤ B := by
  calc ((Finset.range B).filter P).card ≤ (Finset.range B).card := Finset.card_filter_le _ _
    _ = B := Finset.card_range B

end FiltersAndSteps

section StepEqs

variable (hash klen : Nat → Nat)

theorem pruneStep_empty (mask : Nat) (boundary : Int) (s : PruneSt) (i : Nat)
    (h : (s.table i).key = none) :
    pruneStep hash klen mask boundary s i = { s with last_free := i } := by
  unfold pruneStep
  rw [h]

theorem pruneStep_victim (mask : Nat) (boundary : Int) (s : PruneSt) (i k : Nat)
    (h : (s.table i).key = some k) (hc : ¬ boundary < (s.table i).count) :
    pruneStep hash klen mask boundary s i =
      { table := Function.update s.table i ⟨none, 0⟩
        histo := s.histo
        str_allocated := sub64 s.str_allocated (klen k + 1)
        size := s.size
        last_free := i } := by
  unfold pruneStep
  rw [h]
  dsimp only
  rw [if_neg hc]

theorem pruneStep_keep (mask : Nat) (boundary : Int) (s : PruneSt) (i k : Nat)
    (h : (s.table i).key = some k) (hc : boundary < (s.table i).count)
    (hkeep : findReplace s.table mask i (mask + 1)
      (if cdist mask (hash k &&& mask) i < cdist mask s.last_free i then i
       else hash k &&& mask) = i) :
    pruneStep hash klen mask boundary s i =
      { s with
          histo := Function.update s.histo (histo_addr (s.table i).count)
            (hinc (s.histo (histo_addr (s.table i).count)))
          size := (s.size + 1) % U32 } := by
  unfold pruneStep
  rw [h]
  dsimp only
  rw [if_pos hc, hkeep, if_pos rfl]

theorem pruneStep_move (mask : Nat) (boundary : Int) (s : PruneSt) (i k r2 : Nat)
    (h : (s.table i).key = some k) (hc : boundary < (s.table i).count)
    (hrep : findReplace s.table mask i (mask + 1)
      (if cdist mask (hash k &&& mask) i < cdist mask s.last_free i then i
       else hash k &&& mask) = r2)
    (hne : r2 ≠ i) :
    pruneStep hash klen mask boundary s i =
      { table := Function.update (Function.update s.table r2 ⟨some k, (s.table i).count⟩)
          i ⟨none, 0⟩
        histo := Function.update s.histo (histo_addr (s.table i).count)
          (hinc (s.histo (histo_addr (s.table i).count)))
        str_allocated := s.str_allocated
        size := (s.size + 1) % U32
        last_free := i } := by
  unfold pruneStep
  rw [h]
  dsimp only
  rw [if_pos hc, hrep, if_neg hne]

end StepEqs

/-! ## Prune loop: the four iteration cases -/

section PruneCases

variable (hash klen : Nat → Nat) (B start : Nat) (boundary : Int) (tb0 : Nat → Cell)

theorem pruneInv_step_empty
    (hstart : start < B) (t : Nat) (htB : t + 1 < B) (s : PruneSt)
    (inv : PruneInv hash B start boundary tb0 t s)
    (i : Nat) (hiB : i < B) (hui : cycDist B start i = t + 1)
    (htbi : s.table i = tb0 i) (hkey : (tb0 i).key = none) :
    PruneInv hash B start boundary tb0 (t + 1) { s with last_free := i } := by
  obtain ⟨lfLt, lfU, lfEmpty, unproc, between, placed, sizeEq, histoEq, cells, emptyZero⟩ := inv
  refine ⟨hiB, ?_, ?_, ?_, ?_, ?_, ?_, ?_, ?_, ?_⟩
  · show cycDist B start i ≤ t + 1
    omega
  · show (s.table i).key = none
    rw [htbi, hkey]
  · intro x hx
    show s.table x = tb0 x
    apply unproc
    rcases hx with h | h | h
    · exact Or.inl h
    · exact Or.inr (Or.inl h)
    · exact Or.inr (Or.inr (by omega))
  · intro x hxB h1 h2
    show (s.table x).key ≠ none
    have h1x : cycDist B start i < cycDist B start x := h1
    omega
  · intro x hxB k hk h1 h2
    show boundary < (s.table x).count ∧ _
    have hk2 : (s.table x).key = some k := hk
    have hxt : cycDist B start x ≤ t := by
      rcases Nat.lt_or_ge (cycDist B start x) (t + 1) with hlt | hge
      · omega
      · exfalso
        have hxi : x = i := cycDist_inj B start x i hstart hxB hiB (by omega)
        rw [hxi, htbi, hkey] at hk2
        exact Option.noConfusion hk2
    obtain ⟨hcnt, hy⟩ := placed x hxB k hk2 h1 hxt
    refine ⟨hcnt, ?_⟩
    intro y hyB hdy
    obtain ⟨q1, q2, q3⟩ := hy y hyB hdy
    exact ⟨q1, q2, by omega⟩
  · show s.size = _
    rw [sizeEq,
      range_filter_succ_t B start t i hstart hiB hui
        (fun x => ((tb0 x).key).isSome = true ∧ boundary < (tb0 x).count),
      if_neg (by rw [hkey]; simp)]
  · intro bin
    show s.histo bin = _
    rw [histoEq bin,
      range_filter_succ_t B start t i hstart hiB hui
        (fun x => ((tb0 x).key).isSome = true ∧ boundary < (tb0 x).count ∧
          histo_addr (tb0 x).count = bin),
      if_neg (by rw [hkey]; simp)]
  · show Multiset.map s.table _ = Multiset.map tb0 _
    rw [range_filter_succ_t B start t i hstart hiB hui
        (fun x => ((s.table x).key).isSome = true),
      if_neg (by rw [htbi, hkey]; simp),
      range_filter_succ_t B start t i hstart hiB hui
        (fun x => ((tb0 x).key).isSome = true ∧ boundary < (tb0 x).count),
      if_neg (by rw [hkey]; simp)]
    exact cells
  · intro x hx
    exact emptyZero x hx

theorem pruneInv_step_victim
    (hstart : start < B) (t : Nat) (htB : t + 1 < B) (s : PruneSt)
    (inv : PruneInv hash B start boundary tb0 t s)
    (i k : Nat) (hiB : i < B) (hui : cycDist B start i = t + 1)
    (htbi : s.table i = tb0 i) (hkey : (tb0 i).key = some k)
    (hc : ¬ boundary < (s.table i).count) :
    PruneInv hash B start boundary tb0 (t + 1)
      { table := Function.update s.table i ⟨none, 0⟩
        histo := s.histo
        str_allocated := sub64 s.str_allocated (klen k + 1)
        size := s.size
        last_free := i } := by
  obtain ⟨lfLt, lfU, lfEmpty, unproc, between, placed, sizeEq, histoEq, cells, emptyZero⟩ := inv
  have hins : i ≠ start := by
    intro hcon
    rw [hcon, cycDist_self] at hui
    omega
  have hnsurv : ¬ (((tb0 i).key).isSome = true ∧ boundary < (tb0 i).count) := by
    rintro ⟨_, hceq⟩
    rw [htbi] at hc
    exact hc hceq
  refine ⟨hiB, ?_, ?_, ?_, ?_, ?_, ?_, ?_, ?_, ?_⟩
  · show cycDist B start i ≤ t + 1
    omega
  · show (Function.update s.table i ⟨none, 0⟩ i).key = none
    simp [Function.update_same]
  · intro x hx
    show Function.update s.table i ⟨none, 0⟩ x = tb0 x
    have hxi : x ≠ i := by
      rcases hx with h | h | h
      · omega
      · rw [h]
        exact fun hcon => hins hcon.symm
      · intro hcon
        rw [hcon] at h
        omega
    rw [Function.update_noteq hxi]
    apply unproc
    rcases hx with h | h | h
    · exact Or.inl h
    · exact Or.inr (Or.inl h)
    · exact Or.inr (Or.inr (by omega))
  · intro x hxB h1 h2
    show (Function.update s.table i ⟨none, 0⟩ x).key ≠ none
    have h1x : cycDist B start i < cycDist B start x := h1
    omega
  · intro x hxB k2 hk h1 h2
    dsimp only at hk ⊢
    have hxi : x ≠ i := by
      intro hcon
      rw [hcon, Function.update_same] at hk
      exact Option.noConfusion hk
    rw [Function.update_noteq hxi] at hk
    have hxt : cycDist B start x ≤ t := by
      rcases Nat.lt_or_ge (cycDist B start x) (t + 1) with hlt | hge
      · omega
      · exact absurd (cycDist_inj B start x i hstart hxB hiB (by omega)) hxi
    obtain ⟨hcnt, hy⟩ := placed x hxB k2 hk h1 hxt
    rw [Function.update_noteq hxi]
    refine ⟨hcnt, ?_⟩
    intro y hyB hdy
    obtain ⟨q1, q2, q3⟩ := hy y hyB hdy
    have hyi : y ≠ i := by
      intro hcon
      rw [hcon] at q3
      omega
    rw [Function.update_noteq hyi]
    exact ⟨q1, q2, by omega⟩
  · show s.size = _
    rw [sizeEq,
      range_filter_succ_t B start t i hstart hiB hui
        (fun x => ((tb0 x).key).isSome = true ∧ boundary < (tb0 x).count),
      if_neg hnsurv]
  · intro bin
    show s.histo bin = _
    rw [histoEq bin,
      range_filter_succ_t B start t i hstart hiB hui
        (fun x => ((tb0 x).key).isSome = true ∧ boundary < (tb0 x).count ∧
          histo_addr (tb0 x).count = bin),
      if_neg (by
        rintro ⟨ha, hb, _⟩
        exact hnsurv ⟨ha, hb⟩)]
  · show Multiset.map (Function.update s.table i ⟨none, 0⟩) _ = Multiset.map tb0 _
    rw [range_filter_succ_t B start t i hstart hiB hui
        (fun x => ((Function.update s.table i ⟨none, 0⟩ x).key).isSome = true),
      if_neg (by simp [Function.update_same]),
      range_filter_succ_t B start t i hstart hiB hui
        (fun x => ((tb0 x).key).isSome = true ∧ boundary < (tb0 x).count),
      if_neg hnsurv]
    have hset : (Finset.range B).filter
        (fun x => 1 ≤ cycDist B start x ∧ cycDist B start x ≤ t ∧
          ((Function.update s.table i ⟨none, 0⟩ x).key).isSome = true) =
        (Finset.range B).filter
        (fun x => 1 ≤ cycDist B start x ∧ cycDist B start x ≤ t ∧
          ((s.table x).key).isSome = true) := by
      apply Finset.filter_congr
      intro x hx
      by_cases hxi : x = i
      · subst hxi
        constructor
        · rintro ⟨_, h2, _⟩
          omega
        · rintro ⟨_, h2, _⟩
          omega
      · rw [Function.update_noteq hxi]
    rw [hset]
    rw [Multiset.map_congr rfl (fun x hx => by
      have hxi : x ≠ i := by
        rw [Finset.mem_val, Finset.mem_filter] at hx
        intro hcon
        rw [hcon] at hx
        omega
      exact Function.update_noteq hxi _ _)]
    exact cells
  · intro x hx
    dsimp only at hx ⊢
    by_cases hxi : x = i
    · subst hxi
      rw [Function.update_same]
    · rw [Function.update_noteq hxi] at hx ⊢
      exact emptyZero x hx


end PruneCases

section PruneCasesC

theorem mod_succ_of_le (q b2 : Nat) (h : q ≤ b2) (h2 : b2 + 1 < U32) :
    (q + 1) % U32 = q + 1 := by
  have h2b : b2 + 1 < 4294967296 := h2
  show (q + 1) % 4294967296 = q + 1
  omega

variable (hash klen : Nat → Nat) (B start : Nat) (boundary : Int) (tb0 : Nat → Cell)

theorem pruneInv_step_keep
    (n : Nat) (hB : B = 2 ^ n) (hn : n ≤ 31)
    (hstart : start < B) (t : Nat) (htB : t + 1 < B) (s : PruneSt)
    (inv : PruneInv hash B start boundary tb0 t s)
    (i k : Nat) (hiB : i < B) (hui : cycDist B start i = t + 1)
    (htbi : s.table i = tb0 i) (hkey : (tb0 i).key = some k)
    (hc : boundary < (s.table i).count)
    (hr0B : hash k &&& (B - 1) < B)
    (hr0 : 1 ≤ cycDist B start (hash k &&& (B - 1)))
    (hr0i : cycDist B start (hash k &&& (B - 1)) ≤ t + 1)
    (hcond : cycDist B start s.last_free < cycDist B start (hash k &&& (B - 1))) :
    PruneInv hash B start boundary tb0 (t + 1)
      { s with
          histo := Function.update s.histo (histo_addr (s.table i).count)
            (hinc (s.histo (histo_addr (s.table i).count)))
          size := (s.size + 1) % U32 } := by
  obtain ⟨lfLt, lfU, lfEmpty, unproc, between, placed, sizeEq, histoEq, cells, emptyZero⟩ := inv
  have hB0 : 0 < B := by
    rw [hB]
    positivity
  have hBU : B + 1 < U32 := by
    have hle : B ≤ 2 ^ 31 := by
      rw [hB]
      exact Nat.pow_le_pow_right (by omega) hn
    have : (2 : Nat) ^ 31 + 1 < U32 := by norm_num [U32]
    omega
  have hskey : (s.table i).key = some k := by rw [htbi, hkey]
  have hsurv : ((tb0 i).key).isSome = true ∧ boundary < (tb0 i).count := by
    rw [hkey]
    rw [htbi] at hc
    exact ⟨rfl, hc⟩
  refine ⟨lfLt, ?_, lfEmpty, ?_, ?_, ?_, ?_, ?_, ?_, emptyZero⟩
  · show cycDist B start s.last_free ≤ t + 1
    omega
  · intro x hx
    show s.table x = tb0 x
    apply unproc
    rcases hx with h | h | h
    · exact Or.inl h
    · exact Or.inr (Or.inl h)
    · exact Or.inr (Or.inr (by omega))
  · intro x hxB h1 h2
    show (s.table x).key ≠ none
    have h1x : cycDist B start s.last_free < cycDist B start x := h1
    rcases Nat.lt_or_ge (cycDist B start x) (t + 1) with hlt | hge
    · exact between x hxB h1x (by omega)
    · have hxi : x = i := cycDist_inj B start x i hstart hxB hiB (by omega)
      rw [hxi, hskey]
      simp
  · intro x hxB k2 hk h1 h2
    have hk2 : (s.table x).key = some k2 := hk
    show boundary < (s.table x).count ∧ _
    rcases Nat.lt_or_ge (cycDist B start x) (t + 1) with hlt | hge
    · obtain ⟨hcnt, hy⟩ := placed x hxB k2 hk2 h1 (by omega)
      refine ⟨hcnt, ?_⟩
      intro y hyB hdy
      obtain ⟨q1, q2, q3⟩ := hy y hyB hdy
      exact ⟨q1, q2, by omega⟩
    · have hxi : x = i := cycDist_inj B start x i hstart hxB hiB (by omega)
      have hkk : k2 = k := by
        rw [hxi, hskey] at hk2
        injection hk2 with hkk2
        exact hkk2.symm
      refine ⟨by rw [hxi]; exact hc, ?_⟩
      intro y hyB hdy
      rw [hkk, hxi] at hdy
      have cy := cycDist_u_cases B start (hash k &&& (B - 1)) y hstart hr0B hyB
      have ci := cycDist_u_cases B start (hash k &&& (B - 1)) i hstart hr0B hiB
      have hyblt : cycDist B start y < B := cycDist_lt B start y hB0
      refine ⟨between y hyB (by omega) (by omega), by omega, by omega⟩
  · show (s.size + 1) % U32 = _
    rw [range_filter_succ_t B start t i hstart hiB hui
        (fun x => ((tb0 x).key).isSome = true ∧ boundary < (tb0 x).count),
      if_pos hsurv,
      Finset.card_insert_of_not_mem (not_mem_filter_t B start t i hui _), sizeEq]
    exact mod_succ_of_le _ B (filter_card_le_B B _) hBU
  · intro bin
    show Function.update s.histo (histo_addr (s.table i).count)
        (hinc (s.histo (histo_addr (s.table i).count))) bin = _
    rw [range_filter_succ_t B start t i hstart hiB hui
        (fun x => ((tb0 x).key).isSome = true ∧ boundary < (tb0 x).count ∧
          histo_addr (tb0 x).count = bin)]
    by_cases hbin : histo_addr (tb0 i).count = bin
    · rw [if_pos ⟨hsurv.1, hsurv.2, hbin⟩,
        Finset.card_insert_of_not_mem (not_mem_filter_t B start t i hui _), ← histoEq bin]
      rw [htbi, hbin, Function.update_same]
      have hle : s.histo bin ≤ B := by
        rw [histoEq bin]
        exact filter_card_le_B B _
      exact mod_succ_of_le _ B hle hBU
    · rw [if_neg (by
        rintro ⟨_, _, hx⟩
        exact hbin hx), ← histoEq bin]
      rw [htbi]
      exact Function.update_noteq (by omega) _ _
  · show Multiset.map s.table _ = Multiset.map tb0 _
    rw [range_filter_succ_t B start t i hstart hiB hui
        (fun x => ((s.table x).key).isSome = true),
      if_pos (by rw [hskey]; rfl),
      range_filter_succ_t B start t i hstart hiB hui
        (fun x => ((tb0 x).key).isSome = true ∧ boundary < (tb0 x).count),
      if_pos hsurv,
      Finset.insert_val_of_not_mem (not_mem_filter_t B start t i hui _),
      Finset.insert_val_of_not_mem (not_mem_filter_t B start t i hui _),
      Multiset.map_cons, Multiset.map_cons, htbi, cells]

end PruneCasesC

section PruneCasesD

variable (hash klen : Nat → Nat) (B start : Nat) (boundary : Int) (tb0 : Nat → Cell)

theorem pruneInv_step_move
    (n : Nat) (hB : B = 2 ^ n) (hn : n ≤ 31)
    (hstart : start < B) (t : Nat) (htB : t + 1 < B) (s : PruneSt)
    (inv : PruneInv hash B start boundary tb0 t s)
    (i k r2 : Nat) (hiB : i < B) (hui : cycDist B start i = t + 1)
    (htbi : s.table i = tb0 i) (hkey : (tb0 i).key = some k)
    (hc : boundary < (s.table i).count)
    (hr0B : hash k &&& (B - 1) < B)
    (hr0 : 1 ≤ cycDist B start (hash k &&& (B - 1)))
    (hr2B : r2 < B) (hr2empty : (s.table r2).key = none)
    (hr2le : cycDist B (hash k &&& (B - 1)) r2 ≤ cycDist B (hash k &&& (B - 1)) s.last_free)
    (hr2path : ∀ y, y < B → cycDist B (hash k &&& (B - 1)) y < cycDist B (hash k &&& (B - 1)) r2 →
      (s.table y).key ≠ none)
    (hr0lf : cycDist B start (hash k &&& (B - 1)) ≤ cycDist B start s.last_free) :
    PruneInv hash B start boundary tb0 (t + 1)
      { table := Function.update (Function.update s.table r2 ⟨some k, (s.table i).count⟩)
          i ⟨none, 0⟩
        histo := Function.update s.histo (histo_addr (s.table i).count)
          (hinc (s.histo (histo_addr (s.table i).count)))
        str_allocated := s.str_allocated
        size := (s.size + 1) % U32
        last_free := i } := by
  obtain ⟨lfLt, lfU, lfEmpty, unproc, between, placed, sizeEq, histoEq, cells, emptyZero⟩ := inv
  have hB0 : 0 < B := by
    rw [hB]
    positivity
  have hBU : B + 1 < U32 := by
    have hle : B ≤ 2 ^ 31 := by
      rw [hB]
      exact Nat.pow_le_pow_right (by omega) hn
    have : (2 : Nat) ^ 31 + 1 < U32 := by norm_num [U32]
    omega
  have hskey : (s.table i).key = some k := by rw [htbi, hkey]
  have hsurv : ((tb0 i).key).isSome = true ∧ boundary < (tb0 i).count := by
    rw [hkey]
    rw [htbi] at hc
    exact ⟨rfl, hc⟩
  have c_r2 := cycDist_u_cases B start (hash k &&& (B - 1)) r2 hstart hr0B hr2B
  have c_lf := cycDist_u_cases B start (hash k &&& (B - 1)) s.last_free hstart hr0B lfLt
  have hur2lt : cycDist B start r2 < B := cycDist_lt B start r2 hB0
  have hur2 : 1 ≤ cycDist B start r2 ∧ cycDist B start r2 ≤ t := by omega
  have hr2i : r2 ≠ i := by
    intro hcon
    rw [hcon] at hur2
    omega
  have hr2start : r2 ≠ start := by
    intro hcon
    rw [hcon, cycDist_self] at hur2
    omega
  have hins : i ≠ start := by
    intro hcon
    rw [hcon, cycDist_self] at hui
    omega
  have hcell : tb0 i = Cell.mk (some k) ((s.table i).count) := by
    have h1 : (tb0 i).count = (s.table i).count := by rw [htbi]
    cases hcase : tb0 i with
    | mk a b =>
      rw [hcase] at hkey h1
      simp only at hkey h1
      rw [hkey, h1]
  refine ⟨hiB, ?_, ?_, ?_, ?_, ?_, ?_, ?_, ?_, ?_⟩
  · show cycDist B start i ≤ t + 1
    omega
  · show (Function.update (Function.update s.table r2 ⟨some k, (s.table i).count⟩)
      i ⟨none, 0⟩ i).key = none
    rw [Function.update_same]
  · intro x hx
    show Function.update (Function.update s.table r2 ⟨some k, (s.table i).count⟩)
      i ⟨none, 0⟩ x = tb0 x
    have hxi : x ≠ i := by
      rcases hx with h | h | h
      · omega
      · rw [h]
        exact fun hcon => hins hcon.symm
      · intro hcon
        rw [hcon] at h
        omega
    have hxr2 : x ≠ r2 := by
      rcases hx with h | h | h
      · omega
      · rw [h]
        exact fun hcon => hr2start hcon.symm
      · intro hcon
        rw [hcon] at h
        omega
    rw [Function.update_noteq hxi, Function.update_noteq hxr2]
    apply unproc
    rcases hx with h | h | h
    · exact Or.inl h
    · exact Or.inr (Or.inl h)
    · exact Or.inr (Or.inr (by omega))
  · intro x hxB h1 h2
    have h1x : cycDist B start i < cycDist B start x := h1
    omega
  · intro x hxB k2 hk h1 h2
    dsimp only at hk ⊢
    by_cases hxi : x = i
    · rw [hxi, Function.update_same] at hk
      exact Option.noConfusion hk
    · rw [Function.update_noteq hxi] at hk
      by_cases hxr2 : x = r2
      · subst hxr2
        rw [Function.update_same] at hk
        simp only at hk
        injection hk with hk2
        refine ⟨?_, ?_⟩
        · rw [Function.update_noteq hxi, Function.update_same]
          exact hc
        · intro y hyB hdy
          rw [← hk2] at hdy
          have c_y := cycDist_u_cases B start (hash k &&& (B - 1)) y hstart hr0B hyB
          have huylt : cycDist B start y < B := cycDist_lt B start y hB0
          have hyx : y ≠ x := by
            intro hcon
            rw [hcon] at hdy
            omega
          have huy : 1 ≤ cycDist B start y ∧ cycDist B start y ≤ t := by omega
          have hyi : y ≠ i := by
            intro hcon
            rw [hcon, hui] at huy
            omega
          rw [Function.update_noteq hyi, Function.update_noteq hyx]
          refine ⟨hr2path y hyB hdy, huy.1, by omega⟩
      · rw [Function.update_noteq hxr2] at hk
        have hxt : cycDist B start x ≤ t := by
          rcases Nat.lt_or_ge (cycDist B start x) (t + 1) with hlt | hge
          · omega
          · exact absurd (cycDist_inj B start x i hstart hxB hiB (by omega)) hxi
        obtain ⟨hcnt, hy⟩ := placed x hxB k2 hk h1 hxt
        rw [Function.update_noteq hxi, Function.update_noteq hxr2]
        refine ⟨hcnt, ?_⟩
        intro y hyB hdy
        obtain ⟨q1, q2, q3⟩ := hy y hyB hdy
        have hyi : y ≠ i := by
          intro hcon
          rw [hcon] at q3
          omega
        have hyr2 : y ≠ r2 := by
          intro hcon
          rw [hcon] at q1
          exact q1 hr2empty
        rw [Function.update_noteq hyi, Function.update_noteq hyr2]
        exact ⟨q1, q2, by omega⟩
  · show (s.size + 1) % U32 = _
    rw [range_filter_succ_t B start t i hstart hiB hui
        (fun x => ((tb0 x).key).isSome = true ∧ boundary < (tb0 x).count),
      if_pos hsurv,
      Finset.card_insert_of_not_mem (not_mem_filter_t B start t i hui _), sizeEq]
    exact mod_succ_of_le _ B (filter_card_le_B B _) hBU
  · intro bin
    show Function.update s.histo (histo_addr (s.table i).count)
        (hinc (s.histo (histo_addr (s.table i).count))) bin = _
    rw [range_filter_succ_t B start t i hstart hiB hui
        (fun x => ((tb0 x).key).isSome = true ∧ boundary < (tb0 x).count ∧
          histo_addr (tb0 x).count = bin)]
    by_cases hbin : histo_addr (tb0 i).count = bin
    · rw [if_pos ⟨hsurv.1, hsurv.2, hbin⟩,
        Finset.card_insert_of_not_mem (not_mem_filter_t B start t i hui _), ← histoEq bin]
      rw [htbi, hbin, Function.update_same]
      have hle : s.histo bin ≤ B := by
        rw [histoEq bin]
        exact filter_card_le_B B _
      exact mod_succ_of_le _ B hle hBU
    · rw [if_neg (by
        rintro ⟨_, _, hx⟩
        exact hbin hx), ← histoEq bin]
      rw [htbi]
      exact Function.update_noteq (by omega) _ _
  · show Multiset.map (Function.update (Function.update s.table r2
        ⟨some k, (s.table i).count⟩) i ⟨none, 0⟩) _ = Multiset.map tb0 _
    rw [range_filter_succ_t B start t i hstart hiB hui
        (fun x => ((tb0 x).key).isSome = true ∧ boundary < (tb0 x).count),
      if_pos hsurv,
      Finset.insert_val_of_not_mem (not_mem_filter_t B start t i hui _),
      Multiset.map_cons]
    have hset : (Finset.range B).filter
        (fun x => 1 ≤ cycDist B start x ∧ cycDist B start x ≤ t + 1 ∧
          ((Function.update (Function.update s.table r2 ⟨some k, (s.table i).count⟩)
            i ⟨none, 0⟩ x).key).isSome = true) =
        insert r2 ((Finset.range B).filter
          (fun x => 1 ≤ cycDist B start x ∧ cycDist B start x ≤ t ∧
            ((s.table x).key).isSome = true)) := by
      ext x
      simp only [Finset.mem_filter, Finset.mem_insert, Finset.mem_range]
      constructor
      · rintro ⟨hxB, h1, h2, hocc⟩
        by_cases hxi : x = i
        · rw [hxi, Function.update_same] at hocc
          simp at hocc
        · rw [Function.update_noteq hxi] at hocc
          by_cases hxr2 : x = r2
          · exact Or.inl hxr2
          · rw [Function.update_noteq hxr2] at hocc
            have hxt : cycDist B start x ≤ t := by
              rcases Nat.lt_or_ge (cycDist B start x) (t + 1) with hlt | hge
              · omega
              · exact absurd (cycDist_inj B start x i hstart hxB hiB (by omega)) hxi
            exact Or.inr ⟨hxB, h1, hxt, hocc⟩
      · rintro (rfl | ⟨hxB, h1, h2, hocc⟩)
        · refine ⟨hr2B, hur2.1, by omega, ?_⟩
          rw [Function.update_noteq hr2i, Function.update_same]
          rfl
        · have hxi : x ≠ i := by
            intro hcon
            rw [hcon, hui] at h2
            omega
          have hxr2 : x ≠ r2 := by
            intro hcon
            rw [hcon, hr2empty] at hocc
            simp at hocc
          refine ⟨hxB, h1, by omega, ?_⟩
          rw [Function.update_noteq hxi, Function.update_noteq hxr2]
          exact hocc
    rw [hset, Finset.insert_val_of_not_mem (by
        simp only [Finset.mem_filter, Finset.mem_range]
        rintro ⟨_, _, _, hocc⟩
        rw [hr2empty] at hocc
        simp at hocc),
      Multiset.map_cons]
    have hmapc : Multiset.map (Function.update (Function.update s.table r2
          ⟨some k, (s.table i).count⟩) i ⟨none, 0⟩)
        ((Finset.range B).filter (fun x => 1 ≤ cycDist B start x ∧ cycDist B start x ≤ t ∧
          ((s.table x).key).isSome = true)).val =
      Multiset.map s.table ((Finset.range B).filter (fun x => 1 ≤ cycDist B start x ∧
        cycDist B start x ≤ t ∧ ((s.table x).key).isSome = true)).val := by
      apply Multiset.map_congr rfl
      intro x hx
      simp only [Finset.mem_val, Finset.mem_filter, Finset.mem_range] at hx
      obtain ⟨hxB2, h1x, h2x, hoccx⟩ := hx
      have hxi : x ≠ i := by
        intro hcon
        rw [hcon, hui] at h2x
        omega
      have hxr2 : x ≠ r2 := by
        intro hcon
        rw [hcon, hr2empty] at hoccx
        simp at hoccx
      rw [Function.update_noteq hxi, Function.update_noteq hxr2]
    rw [hmapc, cells]
    have hr2cell : Function.update (Function.update s.table r2
        ⟨some k, (s.table i).count⟩) i ⟨none, 0⟩ r2 = tb0 i := by
      rw [Function.update_noteq hr2i, Function.update_same, hcell]
    rw [hr2cell]
  · intro x hx
    dsimp only at hx ⊢
    by_cases hxi : x = i
    · rw [hxi, Function.update_same]
    · rw [Function.update_noteq hxi] at hx ⊢
      by_cases hxr2 : x = r2
      · rw [hxr2, Function.update_same] at hx
        exact Option.noConfusion hx
      · rw [Function.update_noteq hxr2] at hx ⊢
        exact emptyZero x hx

end PruneCasesD

section PruneDispatch

variable (hash klen : Nat → Nat) (B start : Nat) (boundary : Int) (tb0 : Nat → Cell)

theorem pruneInv_step
    (n : Nat) (hB : B = 2 ^ n) (hn : n ≤ 31)
    (hstart : start < B) (hstart0 : (tb0 start).key = none)
    (chain0 : ∀ j, j < B → ∀ k, (tb0 j).key = some k → ∀ y, y < B →
      cycDist B (hash k &&& (B - 1)) y < cycDist B (hash k &&& (B - 1)) j →
      (tb0 y).key ≠ none)
    (t : Nat) (htB : t + 1 < B) (s : PruneSt)
    (inv : PruneInv hash B start boundary tb0 t s) :
    PruneInv hash B start boundary tb0 (t + 1)
      (pruneStep hash klen (B - 1) boundary s ((start + 1 + t) &&& (B - 1))) := by
  have hB0 : 0 < B := by
    rw [hB]
    positivity
  have hmask : (start + 1 + t) &&& (B - 1) = (start + 1 + t) % B := land_mask_mod _ n B hB
  rw [hmask]
  have hiB : (start + 1 + t) % B < B := Nat.mod_lt _ hB0
  have hui : cycDist B start ((start + 1 + t) % B) = t + 1 := by
    have hidx : start + 1 + t = start + (1 + t) := by omega
    rw [hidx, cycDist_add_mod B start (1 + t) hstart,
      Nat.mod_eq_of_lt (show 1 + t < B by omega)]
    omega
  have htbi : s.table ((start + 1 + t) % B) = tb0 ((start + 1 + t) % B) :=
    inv.unproc _ (Or.inr (Or.inr (by omega)))
  rcases hkey : (tb0 ((start + 1 + t) % B)).key with _ | k
  · rw [pruneStep_empty hash klen (B - 1) boundary s _ (by rw [htbi, hkey])]
    exact pruneInv_step_empty hash B start boundary tb0 hstart t htB s inv _ hiB hui htbi hkey
  · have hskey : (s.table ((start + 1 + t) % B)).key = some k := by rw [htbi, hkey]
    by_cases hc : boundary < (s.table ((start + 1 + t) % B)).count
    · have hr0B : hash k &&& (B - 1) < B := by
        rw [land_mask_mod _ n B hB]
        exact Nat.mod_lt _ hB0
      have hnotstart : ¬ (cycDist B (hash k &&& (B - 1)) start <
          cycDist B (hash k &&& (B - 1)) ((start + 1 + t) % B)) := by
        intro hlt
        exact (chain0 _ hiB k hkey start hstart hlt) hstart0
      have c_r0i := cycDist_u_cases B start (hash k &&& (B - 1)) ((start + 1 + t) % B)
        hstart hr0B hiB
      have c_r0s := cycDist_u_cases B start (hash k &&& (B - 1)) start hstart hr0B hstart
      have hustart : cycDist B start start = 0 := cycDist_self B start
      have hr0ult : cycDist B start (hash k &&& (B - 1)) < B :=
        cycDist_lt B start _ hB0
      have hr0a : 1 ≤ cycDist B start (hash k &&& (B - 1)) := by omega
      have hr0b : cycDist B start (hash k &&& (B - 1)) ≤ t + 1 := by omega
      have c_lfi := cycDist_u_cases B start s.last_free ((start + 1 + t) % B)
        hstart inv.lfLt hiB
      have hlfU := inv.lfU
      by_cases hcond : cdist (B - 1) (hash k &&& (B - 1)) ((start + 1 + t) % B) <
          cdist (B - 1) s.last_free ((start + 1 + t) % B)
      · have hkeep : findReplace s.table (B - 1) ((start + 1 + t) % B) ((B - 1) + 1)
            (if cdist (B - 1) (hash k &&& (B - 1)) ((start + 1 + t) % B) <
              cdist (B - 1) s.last_free ((start + 1 + t) % B)
             then (start + 1 + t) % B else hash k &&& (B - 1)) = (start + 1 + t) % B := by
          rw [if_pos hcond]
          exact findReplace_self s.table (B - 1) _ _
        rw [pruneStep_keep hash klen (B - 1) boundary s _ k hskey hc hkeep]
        have hcondc : cycDist B start s.last_free <
            cycDist B start (hash k &&& (B - 1)) := by
          rw [cdist_eq_cycDist n B _ _ hB (by omega) hr0B hiB,
            cdist_eq_cycDist n B _ _ hB (by omega) inv.lfLt hiB] at hcond
          omega
        exact pruneInv_step_keep hash B start boundary tb0 n hB hn hstart t htB s inv
          _ k hiB hui htbi hkey hc hr0B hr0a hr0b hcondc
      · have hr0lf : cycDist B start (hash k &&& (B - 1)) ≤
            cycDist B start s.last_free := by
          rw [cdist_eq_cycDist n B _ _ hB (by omega) hr0B hiB,
            cdist_eq_cycDist n B _ _ hB (by omega) inv.lfLt hiB] at hcond
          omega
        have c_r0lf := cycDist_u_cases B start (hash k &&& (B - 1)) s.last_free
          hstart hr0B inv.lfLt
        have helf : cycDist B (hash k &&& (B - 1)) s.last_free <
            cycDist B (hash k &&& (B - 1)) ((start + 1 + t) % B) := by omega
        have hr0lfB : cycDist B (hash k &&& (B - 1)) s.last_free < B :=
          cycDist_lt B _ _ hB0
        obtain ⟨q1, q2, q3, q4⟩ := findReplace_found n B hB (by omega) s.table
          ((start + 1 + t) % B) s.last_free hiB inv.lfLt inv.lfEmpty ((B - 1) + 1)
          (hash k &&& (B - 1)) hr0B helf (by omega)
        have hne : findReplace s.table (B - 1) ((start + 1 + t) % B) ((B - 1) + 1)
            (hash k &&& (B - 1)) ≠ (start + 1 + t) % B := by
          intro hcon
          rw [hcon] at q3
          omega
        have hrep : findReplace s.table (B - 1) ((start + 1 + t) % B) ((B - 1) + 1)
            (if cdist (B - 1) (hash k &&& (B - 1)) ((start + 1 + t) % B) <
              cdist (B - 1) s.last_free ((start + 1 + t) % B)
             then (start + 1 + t) % B else hash k &&& (B - 1)) =
            findReplace s.table (B - 1) ((start + 1 + t) % B) ((B - 1) + 1)
              (hash k &&& (B - 1)) := by
          rw [if_neg hcond]
        rw [pruneStep_move hash klen (B - 1) boundary s _ k _ hskey hc hrep hne]
        exact pruneInv_step_move hash B start boundary tb0 n hB hn hstart t htB s inv
          _ k _ hiB hui htbi hkey hc hr0B hr0a q1 q2 q3 q4 hr0lf
    · rw [pruneStep_victim hash klen (B - 1) boundary s _ k hskey hc]
      exact pruneInv_step_victim hash klen B start boundary tb0 hstart t htB s inv
        _ k hiB hui htbi hkey hc

end PruneDispatch

section PruneFold

variable (hash klen : Nat → Nat) (B start : Nat) (boundary : Int) (tb0 : Nat → Cell)

theorem pruneInv_base
    (hB0 : 0 < B) (hstart : start < B) (hstart0 : (tb0 start).key = none)
    (hem : ∀ x, (tb0 x).key = none → (tb0 x).count = 0) (str0 : Nat) :
    PruneInv hash B start boundary tb0 0
      { table := tb0, histo := fun _ => 0, str_allocated := str0
        size := 0, last_free := start } := by
  have hfe : ∀ (P : Nat → Prop) (inst : DecidablePred P),
      (Finset.range B).filter (fun x => 1 ≤ cycDist B start x ∧
        cycDist B start x ≤ 0 ∧ P x) = ∅ := by
    intro P inst
    rw [Finset.filter_eq_empty_iff]
    rintro x _ ⟨h1, h2, _⟩
    omega
  refine ⟨hstart, ?_, hstart0, fun _ _ => rfl, ?_, ?_, ?_, ?_, ?_, hem⟩
  · show cycDist B start start ≤ 0
    rw [cycDist_self]
  · intro x hx h1 h2
    rw [cycDist_self] at h1
    omega
  · intro x hx k hk h1 h2
    omega
  · show (0 : Nat) = _
    rw [hfe _ _, Finset.card_empty]
  · intro bin
    show (0 : Nat) = _
    rw [hfe _ _, Finset.card_empty]
  · show Multiset.map tb0 _ = Multiset.map tb0 _
    rw [hfe _ _, hfe _ _]

theorem pruneInv_fold
    (n : Nat) (hB : B = 2 ^ n) (hn : n ≤ 31)
    (hstart : start < B) (hstart0 : (tb0 start).key = none)
    (hem : ∀ x, (tb0 x).key = none → (tb0 x).count = 0)
    (chain0 : ∀ j, j < B → ∀ k, (tb0 j).key = some k → ∀ y, y < B →
      cycDist B (hash k &&& (B - 1)) y < cycDist B (hash k &&& (B - 1)) j →
      (tb0 y).key ≠ none)
    (str0 : Nat) :
    ∀ t, t ≤ B - 1 → PruneInv hash B start boundary tb0 t
      (((List.range t).map (fun j => (start + 1 + j) &&& (B - 1))).foldl
        (pruneStep hash klen (B - 1) boundary)
        { table := tb0, histo := fun _ => 0, str_allocated := str0
          size := 0, last_free := start }) := by
  have hB0 : 0 < B := by
    rw [hB]
    positivity
  intro t
  induction t with
  | zero =>
    intro _
    exact pruneInv_base hash B start boundary tb0 hB0 hstart hstart0 hem str0
  | succ t ih =>
    intro ht
    rw [List.range_succ, List.map_append, List.foldl_append]
    exact pruneInv_step hash klen B start boundary tb0 n hB hn hstart hstart0 chain0
      t (by omega) _ (ih (by omega))

end PruneFold

theorem filter_u_congr (B start : Nat) (hstart : start < B)
    (P : Nat → Prop) [DecidablePred P] (hPs : ¬ P start) :
    (Finset.range B).filter (fun x => 1 ≤ cycDist B start x ∧
      cycDist B start x ≤ B - 1 ∧ P x) =
    (Finset.range B).filter P := by
  apply Finset.filter_congr
  intro x hx
  rw [Finset.mem_range] at hx
  have hlt := cycDist_lt B start x (by omega)
  have hz := cycDist_zero_iff B start x hstart hx
  constructor
  · rintro ⟨_, _, hP⟩
    exact hP
  · intro hP
    refine ⟨?_, by omega, hP⟩
    rcases Nat.eq_zero_or_pos (cycDist B start x) with h0 | h1
    · have hxs := hz.mp h0
      rw [hxs] at hP
      exact absurd hP hPs
    · omega

section PruneFactsSec

variable (hash klen : Nat → Nat)

theorem prune_int_facts (ht : HT) (boundary : Int) (ht2 : HT)
    (n : Nat) (hB : ht.buckets = 2 ^ n) (hn : n ≤ 31)
    (hm : ht.hash_mask = ht.buckets - 1)
    (chain : ∀ j, j < ht.buckets → ∀ k, (ht.table j).key = some k →
      ∀ y, y < ht.buckets →
      cycDist ht.buckets (hash k &&& ht.hash_mask) y <
        cycDist ht.buckets (hash k &&& ht.hash_mask) j →
      (ht.table y).key ≠ none)
    (hem : ∀ x, (ht.table x).key = none → (ht.table x).count = 0)
    (h : prune_int hash klen ht boundary = some ht2) :
    PruneFacts hash ht boundary ht2 := by
  cases hfs : findStart ht.table ht.buckets 0 with
  | none =>
    unfold prune_int at h
    rw [hfs] at h
    exact absurd h (by simp)
  | some start =>
    obtain ⟨hstart0, _, hsB⟩ := findStart_spec ht.table ht.buckets 0 start hfs
    have hstartB : start < ht.buckets := by omega
    have hB0 : 0 < ht.buckets := by
      rw [hB]
      positivity
    have chain' := chain
    rw [hm] at chain'
    have hfold := pruneInv_fold hash klen ht.buckets start boundary ht.table n hB hn
      hstartB hstart0 hem chain' ht.str_allocated (ht.buckets - 1) le_rfl
    unfold prune_int at h
    rw [hfs, hm] at h
    dsimp only at h
    unfold pruneIdxs at h
    rw [List.range_succ, List.map_append, List.foldl_append] at h
    simp only [List.map_cons, List.map_nil, List.foldl_cons, List.foldl_nil] at h
    rw [show (start + 1 + (ht.buckets - 1)) &&& (ht.buckets - 1) = start by
      rw [land_mask_mod _ n ht.buckets hB,
        show start + 1 + (ht.buckets - 1) = start + ht.buckets by omega,
        Nat.add_mod_right, Nat.mod_eq_of_lt hstartB]] at h
    rw [pruneStep_empty hash klen (ht.buckets - 1) boundary _ start
      (by rw [hfold.unproc start (Or.inr (Or.inl rfl))]; exact hstart0)] at h
    dsimp only at h
    injection h with h2
    subst h2
    set sE := List.foldl (pruneStep hash klen (ht.buckets - 1) boundary)
      { table := ht.table, histo := fun _ => 0, str_allocated := ht.str_allocated
        size := 0, last_free := start }
      (List.map (fun t => (start + 1 + t) &&& (ht.buckets - 1))
        (List.range (ht.buckets - 1))) with hsEdef
    obtain ⟨lfLt, lfU, lfEmpty, unproc, between, placed, sizeEq, histoEq, cells,
      emptyZero⟩ := hfold
    have hsEstart : sE.table start = ht.table start := unproc start (Or.inr (Or.inl rfl))
    have hkstart : (sE.table start).key = none := by rw [hsEstart]; exact hstart0
    have hu1 : ∀ x, x < ht.buckets → (sE.table x).key ≠ none →
        1 ≤ cycDist ht.buckets start x ∧
        cycDist ht.buckets start x ≤ ht.buckets - 1 := by
      intro x hx hk
      have hlt := cycDist_lt ht.buckets start x hB0
      have hz := cycDist_zero_iff ht.buckets start x hstartB hx
      rcases Nat.eq_zero_or_pos (cycDist ht.buckets start x) with h0 | h1
      · have hxs := hz.mp h0
        rw [hxs] at hk
        exact absurd hkstart hk
      · exact ⟨h1, by omega⟩
    refine ⟨?_, ?_, ?_, ?_, ?_, ?_, ?_, ?_, ?_, ?_, ?_, ?_, ?_, ?_⟩
    · -- survivorsOnly
      intro x hx hk
      dsimp only at hx hk ⊢
      cases hko : (sE.table x).key with
      | none => exact absurd hko hk
      | some k =>
        obtain ⟨h1, h2⟩ := hu1 x hx hk
        exact (placed x hx k hko h1 h2).1
    · -- sizeEq
      dsimp only
      rw [sizeEq, filter_u_congr ht.buckets start hstartB
        (fun x => ((ht.table x).key).isSome = true ∧ boundary < (ht.table x).count)
        (by simp [hstart0])]
    · -- sizeAcc2
      dsimp only
      rw [sizeEq, ← filter_u_congr ht.buckets start hstartB
        (fun x => ((sE.table x).key).isSome = true) (by simp [hkstart])]
      have h3 := congrArg Multiset.card cells
      rw [Multiset.card_map, Multiset.card_map] at h3
      exact h3.symm
    · -- histoAcc2
      intro b
      dsimp only
      rw [histoEq b]
      have h4 := congrArg (Multiset.countP (fun c => histo_addr c.count = b)) cells
      rw [Multiset.countP_map, Multiset.countP_map] at h4
      rw [← Finset.filter_val, ← Finset.filter_val, Finset.filter_filter,
        Finset.filter_filter] at h4
      have e1 : (Finset.range ht.buckets).filter (fun x =>
          (1 ≤ cycDist ht.buckets start x ∧
            cycDist ht.buckets start x ≤ ht.buckets - 1 ∧
            ((sE.table x).key).isSome = true) ∧
          histo_addr (sE.table x).count = b) =
          (Finset.range ht.buckets).filter (fun x =>
          1 ≤ cycDist ht.buckets start x ∧
            cycDist ht.buckets start x ≤ ht.buckets - 1 ∧
            (((sE.table x).key).isSome = true ∧
              histo_addr (sE.table x).count = b)) := by
        apply Finset.filter_congr
        intro x _
        tauto
      have e2 : (Finset.range ht.buckets).filter (fun x =>
          (1 ≤ cycDist ht.buckets start x ∧
            cycDist ht.buckets start x ≤ ht.buckets - 1 ∧
            ((ht.table x).key).isSome = true ∧ boundary < (ht.table x).count) ∧
          histo_addr (ht.table x).count = b) =
          (Finset.range ht.buckets).filter (fun x =>
          1 ≤ cycDist ht.buckets start x ∧
            cycDist ht.buckets start x ≤ ht.buckets - 1 ∧
            ((ht.table x).key).isSome = true ∧ boundary < (ht.table x).count ∧
            histo_addr (ht.table x).count = b) := by
        apply Finset.filter_congr
        intro x _
        tauto
      rw [e1, e2] at h4
      rw [filter_u_congr ht.buckets start hstartB
        (fun x => ((sE.table x).key).isSome = true ∧
          histo_addr (sE.table x).count = b) (by simp [hkstart])] at h4
      exact h4.symm
    · -- totalEq
      rfl
    · -- bucketsEq
      rfl
    · -- maskEq
      exact hm.symm
    · -- hllEq
      rfl
    · -- strAl
      rfl
    · -- maxPrune
      rfl
    · -- chain2
      intro i hi k hk y hy hlt
      dsimp only at hi hk hy hlt ⊢
      have hkne : (sE.table i).key ≠ none := by rw [hk]; exact Option.some_ne_none k
      obtain ⟨h1, h2⟩ := hu1 i hi hkne
      exact ((placed i hi k hk h1 h2).2 y hy hlt).1
    · -- offT2
      intro x hx
      dsimp only
      exact unproc x (Or.inl hx)
    · -- empty2
      intro x hx
      dsimp only at hx ⊢
      exact emptyZero x hx
    · -- cellsPerm
      dsimp only
      rw [filter_u_congr ht.buckets start hstartB
        (fun x => ((sE.table x).key).isSome = true) (by simp [hkstart]),
        filter_u_congr ht.buckets start hstartB
        (fun x => ((ht.table x).key).isSome = true ∧ boundary < (ht.table x).count)
        (by simp [hstart0])] at cells
      exact cells

end PruneFactsSec

theorem hdec_eq (x : Nat) (h1 : 1 ≤ x) (h2 : x < U32) : hdec x = x - 1 := by
  have h2' : x < 4294967296 := h2
  show (x + (4294967296 - 1)) % 4294967296 = x - 1
  omega

theorem hinc_eq (x : Nat) (h2 : x + 1 < U32) : hinc x = x + 1 := by
  have h2' : x + 1 < 4294967296 := h2
  show (x + 1) % 4294967296 = x + 1
  omega

theorem hinc_hdec (x : Nat) (h2 : x < U32) : hinc (hdec x) = x := by
  have h2' : x < 4294967296 := h2
  show ((x + (4294967296 - 1)) % 4294967296 + 1) % 4294967296 = x
  omega

theorem histo_addr_zero : histo_addr 0 = 0 := rfl

theorem filter_insert_some (B : Nat) (tb : Nat → Cell) (j k : Nat) (c : Int)
    (hjB : j < B) (hempty : (tb j).key = none) :
    (Finset.range B).filter
      (fun x => (((Function.update tb j ⟨some k, c⟩) x).key).isSome = true) =
    insert j ((Finset.range B).filter (fun x => ((tb x).key).isSome = true)) := by
  ext x
  by_cases hx : x = j
  · subst hx
    simp [Function.update_same, Finset.mem_range.mpr hjB]
  · simp [Function.update_noteq hx, Finset.mem_insert, hx]

theorem filter_update_count (B : Nat) (tb : Nat → Cell) (j : Nat) (c : Int) :
    (Finset.range B).filter
      (fun x => (((Function.update tb j ⟨(tb j).key, c⟩) x).key).isSome = true) =
    (Finset.range B).filter (fun x => ((tb x).key).isSome = true) := by
  apply Finset.filter_congr
  intro x _
  by_cases hx : x = j
  · subst hx
    rw [Function.update_same]
  · rw [Function.update_noteq hx]

theorem histo_insert (B : Nat) (hBU : B + 1 < U32) (tb : Nat → Cell) (h : Nat → Nat)
    (hacc : ∀ b, h b = ((Finset.range B).filter
      (fun x => ((tb x).key).isSome = true ∧ histo_addr (tb x).count = b)).card)
    (j k : Nat) (hjB : j < B) (hempty : (tb j).key = none) :
    ∀ b, Function.update h 0 (hinc (h 0)) b =
      ((Finset.range B).filter (fun x =>
        (((Function.update tb j ⟨some k, 0⟩) x).key).isSome = true ∧
        histo_addr ((Function.update tb j ⟨some k, 0⟩) x).count = b)).card := by
  intro b
  have hjF : ∀ b2, j ∉ (Finset.range B).filter
      (fun x => ((tb x).key).isSome = true ∧ histo_addr (tb x).count = b2) := by
    intro b2 hmem
    rw [Finset.mem_filter] at hmem
    rw [hempty] at hmem
    simp at hmem
  have hF : ∀ b2, (Finset.range B).filter (fun x =>
        (((Function.update tb j ⟨some k, 0⟩) x).key).isSome = true ∧
        histo_addr ((Function.update tb j ⟨some k, 0⟩) x).count = b2) =
      (if b2 = 0 then insert j else id) ((Finset.range B).filter
        (fun x => ((tb x).key).isSome = true ∧ histo_addr (tb x).count = b2)) := by
    intro b2
    ext x
    by_cases hx : x = j
    · subst hx
      by_cases hb2 : b2 = 0
      · subst hb2
        simp [Function.update_same, Finset.mem_range.mpr hjB, histo_addr_zero]
      · simp [Function.update_same, hb2, hempty, histo_addr_zero,
          Ne.symm hb2]
    · by_cases hb2 : b2 = 0 <;>
        simp [Function.update_noteq hx, hb2, Finset.mem_insert, hx]
  have hcard : ∀ b2, h b2 < U32 := by
    intro b2
    have := filter_card_le_B B (fun x => ((tb x).key).isSome = true ∧
      histo_addr (tb x).count = b2)
    rw [hacc b2]
    omega
  by_cases hb : b = 0
  · subst hb
    rw [Function.update_same, hF 0, if_pos rfl]
    rw [Finset.card_insert_of_not_mem (hjF 0), hinc_eq _ (by
      have := filter_card_le_B B (fun x => ((tb x).key).isSome = true ∧
        histo_addr (tb x).count = 0)
      rw [hacc 0]
      omega), hacc 0]
  · rw [Function.update_noteq hb, hF b, if_neg hb, hacc b]
    rfl

theorem histo_retarget (B : Nat) (hBU : B + 1 < U32) (tb : Nat → Cell) (h : Nat → Nat)
    (hacc : ∀ b, h b = ((Finset.range B).filter
      (fun x => ((tb x).key).isSome = true ∧ histo_addr (tb x).count = b)).card)
    (j : Nat) (hjB : j < B) (hsome : ((tb j).key).isSome = true) (c : Int) :
    ∀ b, Function.update
        (Function.update h (histo_addr (tb j).count)
          (hdec (h (histo_addr (tb j).count))))
        (histo_addr c)
        (hinc ((Function.update h (histo_addr (tb j).count)
          (hdec (h (histo_addr (tb j).count)))) (histo_addr c))) b =
      ((Finset.range B).filter (fun x =>
        (((Function.update tb j ⟨(tb j).key, c⟩) x).key).isSome = true ∧
        histo_addr ((Function.update tb j ⟨(tb j).key, c⟩) x).count = b)).card := by
  intro b
  have hcard : ∀ b2, h b2 ≤ B := by
    intro b2
    have := filter_card_le_B B (fun x => ((tb x).key).isSome = true ∧
      histo_addr (tb x).count = b2)
    rw [hacc b2]
    omega
  have hjF : j ∈ (Finset.range B).filter
      (fun x => ((tb x).key).isSome = true ∧
        histo_addr (tb x).count = histo_addr (tb j).count) :=
    Finset.mem_filter.mpr ⟨Finset.mem_range.mpr hjB, hsome, rfl⟩
  have h1pos : 1 ≤ h (histo_addr (tb j).count) := by
    rw [hacc]
    exact Finset.card_pos.mpr ⟨j, hjF⟩
  have hF : ∀ b2, (Finset.range B).filter (fun x =>
        (((Function.update tb j ⟨(tb j).key, c⟩) x).key).isSome = true ∧
        histo_addr ((Function.update tb j ⟨(tb j).key, c⟩) x).count = b2) =
      (if b2 = histo_addr c then insert j else id)
        (((Finset.range B).filter
          (fun x => ((tb x).key).isSome = true ∧
            histo_addr (tb x).count = b2)).erase j) := by
    intro b2
    ext x
    by_cases hx : x = j
    · subst hx
      by_cases hb2 : b2 = histo_addr c
      · subst hb2
        simp [Function.update_same, Finset.mem_range.mpr hjB, hsome]
      · simp [Function.update_same, hb2, Ne.symm hb2]
    · by_cases hb2 : b2 = histo_addr c <;>
        simp [Function.update_noteq hx, hb2, Finset.mem_insert, Finset.mem_erase, hx]
  by_cases hb2 : b = histo_addr c
  · subst hb2
    rw [hF, if_pos rfl]
    rw [Finset.card_insert_of_not_mem (Finset.not_mem_erase j _)]
    rw [Function.update_same]
    by_cases hb1 : histo_addr c = histo_addr (tb j).count
    · rw [hb1, Function.update_same, hinc_hdec _ (by have := hcard (histo_addr (tb j).count); omega)]
      rw [hacc, Finset.card_erase_of_mem (hb1 ▸ hjF)]
      have hpos : 1 ≤ ((Finset.range B).filter
          (fun x => ((tb x).key).isSome = true ∧
            histo_addr (tb x).count = histo_addr (tb j).count)).card := by
        rw [← hacc]
        exact h1pos
      omega
    · rw [Function.update_noteq hb1]
      have hjnot : j ∉ (Finset.range B).filter
          (fun x => ((tb x).key).isSome = true ∧
            histo_addr (tb x).count = histo_addr c) := by
        intro hmem
        rw [Finset.mem_filter] at hmem
        exact hb1 hmem.2.2.symm
      rw [Finset.erase_eq_of_not_mem hjnot]
      rw [hinc_eq _ (by have := hcard (histo_addr c); omega), hacc]
  · rw [Function.update_noteq hb2, hF, if_neg hb2]
    simp only [id_eq]
    by_cases hb1 : b = histo_addr (tb j).count
    · subst hb1
      rw [Function.update_same, hdec_eq _ h1pos (by have := hcard (histo_addr (tb j).count); omega)]
      rw [hacc, Finset.card_erase_of_mem hjF]
    · rw [Function.update_noteq hb1]
      have hjnot : j ∉ (Finset.range B).filter
          (fun x => ((tb x).key).isSome = true ∧ histo_addr (tb x).count = b) := by
        intro hmem
        rw [Finset.mem_filter] at hmem
        exact hb1 hmem.2.2.symm
      rw [Finset.erase_eq_of_not_mem hjnot, hacc]

theorem wf_B_lt (hash : Nat → Nat) (ht : HT) (hwf : WF hash ht) : ht.buckets + 1 < U32 := by
  obtain ⟨n, hn2, hn31, hB⟩ := hwf.pow
  have h1 : ht.buckets ≤ 2 ^ 31 := by
    rw [hB]
    exact Nat.pow_le_pow_right (by norm_num) hn31
  have h2 : (2 : Nat) ^ 31 + 1 < 4294967296 := by norm_num
  show ht.buckets + 1 < 4294967296
  omega

theorem wf_size_le (hash : Nat → Nat) (ht : HT) (hwf : WF hash ht) : ht.size ≤ ht.buckets := by
  rw [hwf.sizeAcc]
  exact filter_card_le_B ht.buckets _

theorem wf_insert (hash klen : Nat → Nat) (ht : HT) (hwf : WF hash ht) (k j : Nat)
    (hjB : j < ht.buckets) (hempty : (ht.table j).key = none)
    (hpath : ∀ y, y < ht.buckets →
      cycDist ht.buckets (hash k &&& ht.hash_mask) y <
        cycDist ht.buckets (hash k &&& ht.hash_mask) j →
      (ht.table y).key ≠ none) :
    WF hash { ht with
                size := (ht.size + 1) % U32
                str_allocated := add64 ht.str_allocated (klen k + 1)
                table := Function.update ht.table j ⟨some k, 0⟩
                histo := Function.update ht.histo 0 (hinc (ht.histo 0)) } := by
  have hBU := wf_B_lt hash ht hwf
  refine ⟨?_, ?_, ?_, ?_, ?_, ?_, ?_, ?_⟩
  · exact hwf.pow
  · exact hwf.hm
  · intro x hx
    dsimp only at hx ⊢
    rw [Function.update_noteq (by omega)]
    exact hwf.offT x hx
  · intro x hx
    dsimp only at hx ⊢
    by_cases hxj : x = j
    · subst hxj
      rw [Function.update_same] at hx
      exact absurd hx (by simp)
    · rw [Function.update_noteq hxj] at hx ⊢
      exact hwf.emptyCount x hx
  · intro x hx
    dsimp only at hx ⊢
    by_cases hxj : x = j
    · subst hxj
      rw [Function.update_same]
      constructor
      · norm_num
      · show (0 : Int) ≤ LLONG_MAX
        norm_num [LLONG_MAX]
    · rw [Function.update_noteq hxj] at hx ⊢
      exact hwf.countRange x hx
  · intro i hi k2 hk2 y hy hlt
    dsimp only at hi hk2 hy hlt ⊢
    by_cases hij : i = j
    · subst hij
      rw [Function.update_same] at hk2
      injection hk2 with hk2e
      subst hk2e
      have hyj : y ≠ i := by
        intro hcon
        subst hcon
        omega
      rw [Function.update_noteq hyj]
      exact hpath y hy hlt
    · rw [Function.update_noteq hij] at hk2
      by_cases hyj : y = j
      · subst hyj
        rw [Function.update_same]
        simp
      · rw [Function.update_noteq hyj]
        exact hwf.chain i hi k2 hk2 y hy hlt
  · dsimp only
    rw [filter_insert_some ht.buckets ht.table j k 0 hjB hempty,
      Finset.card_insert_of_not_mem (by
        intro hmem
        rw [Finset.mem_filter, hempty] at hmem
        simp at hmem),
      ← hwf.sizeAcc]
    have hsz := wf_size_le hash ht hwf
    exact mod_succ_of_le ht.size ht.buckets hsz hBU
  · intro b
    dsimp only
    exact histo_insert ht.buckets hBU ht.table ht.histo hwf.histoAcc j k hjB hempty b

theorem wf_recount (hash : Nat → Nat) (ht : HT) (hwf : WF hash ht) (j : Nat)
    (hjB : j < ht.buckets) (hsome : ((ht.table j).key).isSome = true)
    (c : Int) (hc0 : 0 ≤ c) (hcM : c ≤ LLONG_MAX) (tot : Int) :
    WF hash { ht with
                total := tot
                histo := Function.update
                  (Function.update ht.histo (histo_addr (ht.table j).count)
                    (hdec (ht.histo (histo_addr (ht.table j).count))))
                  (histo_addr c)
                  (hinc ((Function.update ht.histo (histo_addr (ht.table j).count)
                    (hdec (ht.histo (histo_addr (ht.table j).count)))) (histo_addr c)))
                table := Function.update ht.table j ⟨(ht.table j).key, c⟩ } := by
  have hBU := wf_B_lt hash ht hwf
  refine ⟨?_, ?_, ?_, ?_, ?_, ?_, ?_, ?_⟩
  · exact hwf.pow
  · exact hwf.hm
  · intro x hx
    dsimp only at hx ⊢
    rw [Function.update_noteq (by omega)]
    exact hwf.offT x hx
  · intro x hx
    dsimp only at hx ⊢
    by_cases hxj : x = j
    · subst hxj
      rw [Function.update_same] at hx ⊢
      rw [hx] at hsome
      exact absurd hsome (by simp)
    · rw [Function.update_noteq hxj] at hx ⊢
      exact hwf.emptyCount x hx
  · intro x hx
    dsimp only at hx ⊢
    by_cases hxj : x = j
    · subst hxj
      rw [Function.update_same]
      exact ⟨hc0, hcM⟩
    · rw [Function.update_noteq hxj] at hx ⊢
      exact hwf.countRange x hx
  · intro i hi k2 hk2 y hy hlt
    dsimp only at hi hk2 hy hlt ⊢
    have hkeays : ∀ z, ((Function.update ht.table j ⟨(ht.table j).key, c⟩) z).key =
        (ht.table z).key := by
      intro z
      by_cases hz : z = j
      · subst hz
        rw [Function.update_same]
      · rw [Function.update_noteq hz]
    rw [hkeays] at hk2
    rw [hkeays]
    exact hwf.chain i hi k2 hk2 y hy hlt
  · dsimp only
    rw [filter_update_count ht.buckets ht.table j c]
    exact hwf.sizeAcc
  · intro b
    dsimp only
    exact histo_retarget ht.buckets hBU ht.table ht.histo hwf.histoAcc j hjB hsome c b

theorem wf_total_only (hash : Nat → Nat) (ht : HT) (hwf : WF hash ht) (tot : Int) :
    WF hash { ht with total := tot } := by
  refine ⟨hwf.pow, hwf.hm, hwf.offT, hwf.emptyCount, hwf.countRange, hwf.chain,
    hwf.sizeAcc, hwf.histoAcc⟩

theorem wf_recount_empty (hash : Nat → Nat) (ht : HT) (hwf : WF hash ht) (j : Nat)
    (hnone : (ht.table j).key = none) (tot : Int) :
    WF hash { ht with
                total := tot
                histo := Function.update
                  (Function.update ht.histo (histo_addr (ht.table j).count)
                    (hdec (ht.histo (histo_addr (ht.table j).count))))
                  0
                  (hinc ((Function.update ht.histo (histo_addr (ht.table j).count)
                    (hdec (ht.histo (histo_addr (ht.table j).count)))) 0))
                table := Function.update ht.table j ⟨(ht.table j).key, 0⟩ } := by
  have hBU := wf_B_lt hash ht hwf
  have hc0 : (ht.table j).count = 0 := hwf.emptyCount j hnone
  have hcell : ht.table j = ⟨none, 0⟩ := by
    cases hcj : ht.table j with
    | mk ky ct =>
      rw [hcj] at hnone hc0
      dsimp only at hnone hc0
      rw [hnone, hc0]
  have htb : Function.update ht.table j ⟨(ht.table j).key, 0⟩ = ht.table := by
    rw [hnone, ← hcell]
    exact Function.update_eq_self j ht.table
  have hbin : histo_addr (ht.table j).count = 0 := by
    rw [hc0]
    rfl
  have hh0 : ht.histo 0 ≤ ht.buckets := by
    rw [hwf.histoAcc 0]
    exact filter_card_le_B ht.buckets _
  have hhist : Function.update
      (Function.update ht.histo (histo_addr (ht.table j).count)
        (hdec (ht.histo (histo_addr (ht.table j).count))))
      0
      (hinc ((Function.update ht.histo (histo_addr (ht.table j).count)
        (hdec (ht.histo (histo_addr (ht.table j).count)))) 0)) = ht.histo := by
    rw [hbin]
    funext b
    by_cases hb : b = 0
    · subst hb
      rw [Function.update_same, Function.update_same,
        hinc_hdec _ (by show ht.histo 0 < 4294967296; have : (4294967296 : Nat) = U32 := rfl; omega)]
    · rw [Function.update_noteq hb, Function.update_noteq hb]
  rw [htb, hhist]
  exact wf_total_only hash ht hwf tot

theorem wf_init (hash : Nat → Nat) (w : Int) (ht : HT) (h : ht_init w = .ok ht) :
    WF hash ht := by
  rw [ht_init] at h
  split at h
  · exact absurd h (by simp)
  · next h4 =>
    split at h
    · exact absurd h (by simp)
    · next hFF =>
      injection h with h1
      have hw1 : 1 ≤ w.toNat := by omega
      obtain ⟨hlo, hhi⟩ := bitlen_bounds w.toNat hw1
      have hb3 : 3 ≤ bitlen w.toNat := by
        by_contra hcon
        have : 2 ^ bitlen w.toNat ≤ 2 ^ 2 := Nat.pow_le_pow_right (by omega) (by omega)
        omega
      have hb32 : bitlen w.toNat ≤ 32 := by
        by_contra hcon
        have : 2 ^ 32 ≤ 2 ^ (bitlen w.toNat - 1) :=
          Nat.pow_le_pow_right (by omega) (by omega)
        have hwle : w.toNat ≤ 4294967295 := by omega
        have : (2 : Nat) ^ 32 = 4294967296 := by norm_num
        omega
      subst h1
      have hbk : (1 : Nat) <<< (bitlen w.toNat - 1) = 2 ^ (bitlen w.toNat - 1) := by
        rw [Nat.shiftLeft_eq, Nat.one_mul]
      refine ⟨⟨bitlen w.toNat - 1, by omega, by omega, hbk⟩, rfl, ?_, ?_, ?_, ?_, ?_, ?_⟩
      · intro x _
        rfl
      · intro x _
        rfl
      · intro x hx
        exact absurd rfl hx
      · intro i _ k hk
        exact absurd hk (by simp)
      · dsimp only
        rw [Finset.filter_false_of_mem, Finset.card_empty]
        intro x _
        simp
      · intro b
        dsimp only
        rw [Finset.filter_false_of_mem, Finset.card_empty]
        intro x _
        simp

section WfPrune

variable (hash klen : Nat → Nat)

theorem wf_prune (ht : HT) (b : Int) (ht2 : HT) (hwf : WF hash ht)
    (h : prune_int hash klen ht b = some ht2) : WF hash ht2 := by
  obtain ⟨n, hn2, hn31, hB⟩ := hwf.pow
  have pf := prune_int_facts hash klen ht b ht2 n hB hn31 hwf.hm hwf.chain
    hwf.emptyCount h
  refine ⟨?_, ?_, ?_, pf.empty2, ?_, ?_, ?_, ?_⟩
  · exact ⟨n, hn2, hn31, by rw [pf.bucketsEq, hB]⟩
  · rw [pf.maskEq, pf.bucketsEq]
    exact hwf.hm
  · intro x hx
    rw [pf.offT2 x hx]
    rw [pf.bucketsEq] at hx
    exact hwf.offT x hx
  · intro x hx
    by_cases hxB : x < ht.buckets
    · have hmem : ht2.table x ∈ Multiset.map ht2.table ((Finset.range ht.buckets).filter
          (fun y => ((ht2.table y).key).isSome = true)).val := by
        apply Multiset.mem_map_of_mem
        rw [Finset.mem_val, Finset.mem_filter, Finset.mem_range]
        refine ⟨hxB, ?_⟩
        cases hk : (ht2.table x).key with
        | none => exact absurd hk hx
        | some k => rfl
      rw [pf.cellsPerm] at hmem
      obtain ⟨y, hy, hcell⟩ := Multiset.mem_map.mp hmem
      rw [Finset.mem_val, Finset.mem_filter] at hy
      rw [← hcell]
      apply hwf.countRange
      intro hcon
      rw [hcon] at hy
      exact absurd hy.2.1 (by simp)
    · have hx2 : ht2.buckets ≤ x := by
        rw [pf.bucketsEq]
        omega
      rw [pf.offT2 x hx2, hwf.offT x (by omega)] at hx
      exact absurd rfl hx
  · intro i hi k hk y hy hlt
    exact pf.chain2 i hi k hk y hy hlt
  · rw [pf.sizeAcc2]
  · exact pf.histoAcc2

end WfPrune

section FindFacts

variable (hash klen : Nat → Nat)

theorem wf_hll_only (ht : HT) (hwf : WF hash ht) (l : List Nat) :
    WF hash { ht with hll := l } :=
  ⟨hwf.pow, hwf.hm, hwf.offT, hwf.emptyCount, hwf.countRange, hwf.chain,
    hwf.sizeAcc, hwf.histoAcc⟩

theorem find_cell_facts (ht : HT) (hwf : WF hash ht) (k : Nat) (st : Bool)
    (ht1 : HT) (i : Nat) (h : find_cell hash ht k st = some (ht1, i)) :
    i < ht.buckets ∧ ((ht.table i).key = none ∨ (ht.table i).key = some k) ∧
    ∀ y, y < ht.buckets →
      cycDist ht.buckets (hash k &&& ht.hash_mask) y <
        cycDist ht.buckets (hash k &&& ht.hash_mask) i →
      (ht.table y).key ≠ none ∧ (ht.table y).key ≠ some k := by
  obtain ⟨n, hn2, hn31, hB⟩ := hwf.pow
  have hB0 : 0 < ht.buckets := by
    rw [hB]
    positivity
  have hp : probe ht.table ht.hash_mask k ht.buckets (hash k &&& ht.hash_mask) = some i := by
    cases st with
    | true => exact (find_cell_true_eq hash ht k ht1 i h).2
    | false => exact (find_cell_false_eq hash ht k ht1 i h).2
  rw [hwf.hm] at hp
  have hr0 : hash k &&& (ht.buckets - 1) < ht.buckets := by
    rw [land_mask_mod _ n ht.buckets hB]
    exact Nat.mod_lt _ hB0
  obtain ⟨q1, q2, q3⟩ := probe_path n ht.buckets hB (by omega) ht.table k
    ht.buckets _ i hr0 hp
  rw [hwf.hm]
  exact ⟨q1, q2, q3⟩

theorem key_absent (ht : HT) (hwf : WF hash ht) (k i : Nat)
    (hiB : i < ht.buckets) (hempty : (ht.table i).key = none)
    (hpath : ∀ y, y < ht.buckets →
      cycDist ht.buckets (hash k &&& ht.hash_mask) y <
        cycDist ht.buckets (hash k &&& ht.hash_mask) i →
      (ht.table y).key ≠ none ∧ (ht.table y).key ≠ some k) :
    ∀ x, (ht.table x).key ≠ some k := by
  obtain ⟨n, hn2, hn31, hB⟩ := hwf.pow
  have hB0 : 0 < ht.buckets := by
    rw [hB]
    positivity
  have hr0 : hash k &&& (ht.buckets - 1) < ht.buckets := by
    rw [land_mask_mod _ n ht.buckets hB]
    exact Nat.mod_lt _ hB0
  rw [hwf.hm] at hpath
  intro x hx
  by_cases hxB : x < ht.buckets
  · have hxi : x ≠ i := by
      intro hcon
      rw [hcon, hempty] at hx
      exact Option.noConfusion hx
    rcases Nat.lt_trichotomy
        (cycDist ht.buckets (hash k &&& (ht.buckets - 1)) i)
        (cycDist ht.buckets (hash k &&& (ht.buckets - 1)) x) with hlt | heq | hgt
    · have hchain := hwf.chain x hxB k hx i hiB
      rw [hwf.hm] at hchain
      exact (hchain hlt) hempty
    · exact hxi (cycDist_inj ht.buckets _ x i hr0 hxB hiB heq.symm)
    · exact (hpath x hxB hgt).2 hx
  · rw [hwf.offT x (by omega)] at hx
    exact Option.noConfusion hx

end FindFacts

section AllocSpec

variable (hash klen : Nat → Nat)

theorem key_absent_prune (ht : HT) (b : Int) (ht2 : HT) (k : Nat) (hwf : WF hash ht)
    (h : prune_int hash klen ht b = some ht2)
    (habs : ∀ x, (ht.table x).key ≠ some k) :
    ∀ x, (ht2.table x).key ≠ some k := by
  obtain ⟨n, hn2, hn31, hB⟩ := hwf.pow
  have pf := prune_int_facts hash klen ht b ht2 n hB hn31 hwf.hm hwf.chain
    hwf.emptyCount h
  intro x hx
  by_cases hxB : x < ht.buckets
  · have hmem : ht2.table x ∈ Multiset.map ht2.table ((Finset.range ht.buckets).filter
        (fun y => ((ht2.table y).key).isSome = true)).val := by
      apply Multiset.mem_map_of_mem
      rw [Finset.mem_val, Finset.mem_filter, Finset.mem_range]
      exact ⟨hxB, by rw [hx]; rfl⟩
    rw [pf.cellsPerm] at hmem
    obtain ⟨y, _, hcell⟩ := Multiset.mem_map.mp hmem
    rw [← hcell] at hx
    exact habs y hx
  · have hx2 : ht2.buckets ≤ x := by
      rw [pf.bucketsEq]
      omega
    rw [pf.offT2 x hx2, hwf.offT x (by omega)] at hx
    exact Option.noConfusion hx

theorem prune_int_shape (ht : HT) (b : Int) (ht2 : HT)
    (h : prune_int hash klen ht b = some ht2) :
    ht2.buckets = ht.buckets ∧ ht2.hash_mask = ht.hash_mask ∧
    ht2.total = ht.total ∧ ht2.hll = ht.hll := by
  unfold prune_int at h
  cases hfs : findStart ht.table ht.buckets 0 with
  | none =>
    rw [hfs] at h
    exact absurd h (by simp)
  | some start =>
    rw [hfs] at h
    dsimp only at h
    injection h with h2
    subst h2
    exact ⟨rfl, rfl, rfl, rfl⟩

theorem allocate_spec (ht : HT) (k : Nat) (htr : HT) (j : Nat) (hwf : WF hash ht)
    (h : allocate_cell hash klen ht k = some (htr, j)) :
    WF hash htr ∧ htr.buckets = ht.buckets ∧ j < ht.buckets ∧
    (htr.table j).key = some k ∧ htr.hll = ht.hll ++ [hash k] := by
  rw [allocate_cell] at h
  split at h
  · exact absurd h (by simp)
  · next ht1x ix hfind =>
    obtain ⟨e1, _⟩ := find_cell_true_eq hash ht k ht1x ix hfind
    subst e1
    obtain ⟨hiB, hstop, hpath⟩ := find_cell_facts hash ht hwf k true _ ix hfind
    dsimp only at h
    split at h
    · next k2 hkey =>
      simp only [Option.some.injEq, Prod.mk.injEq] at h
      obtain ⟨hhtr, hj⟩ := h
      subst hhtr
      subst hj
      have hk2 : (ht.table ix).key = some k := by
        rcases hstop with hs | hs
        · rw [hs] at hkey
          exact Option.noConfusion hkey
        · exact hs
      exact ⟨wf_hll_only hash ht hwf _, rfl, hiB, hk2, rfl⟩
    · next hkey =>
      by_cases hcond : ({ ht with hll := ht.hll ++ [hash k] } : HT).buckets >>> 2 * 3 ≤
          ({ ht with hll := ht.hll ++ [hash k] } : HT).size
      · rw [if_pos hcond] at h
        cases hpr : prune_int hash klen { ht with hll := ht.hll ++ [hash k] }
            (prune_size { ht with hll := ht.hll ++ [hash k] }) with
        | none =>
          rw [hpr] at h
          exact absurd h (by simp)
        | some ht2p =>
          rw [hpr] at h
          dsimp only at h
          have hwf1 := wf_hll_only hash ht hwf (ht.hll ++ [hash k])
          have hwf2 := wf_prune hash klen _ _ ht2p hwf1 hpr
          have hshape := prune_int_shape hash klen _ _ ht2p hpr
          cases hfc : find_cell hash ht2p k false with
          | none =>
            rw [hfc] at h
            exact absurd h (by simp)
          | some p =>
            obtain ⟨ht2x, j2⟩ := p
            rw [hfc] at h
            dsimp only at h
            simp only [Option.some.injEq, Prod.mk.injEq] at h
            obtain ⟨hhtr, hj⟩ := h
            subst hhtr
            subst hj
            obtain ⟨he2, _⟩ := find_cell_false_eq hash ht2p k ht2x j2 hfc
            subst he2
            obtain ⟨hjB2, hstop2, hpath2⟩ := find_cell_facts hash ht2x hwf2 k false _ j2 hfc
            have habs0 : ∀ x, (ht.table x).key ≠ some k :=
              key_absent hash ht hwf k ix hiB hkey hpath
            have habs2 := key_absent_prune hash klen _ _ ht2x k hwf1 hpr
              (fun x => habs0 x)
            have hempty2 : (ht2x.table j2).key = none := by
              rcases hstop2 with hs | hs
              · exact hs
              · exact absurd hs (habs2 j2)
            have hins := wf_insert hash klen ht2x hwf2 k j2 hjB2 hempty2
              (fun y hy hlt => (hpath2 y hy hlt).1)
            refine ⟨hins, ?_, ?_, ?_, ?_⟩
            · dsimp only
              rw [hshape.1]
            · rw [hshape.1] at hjB2
              exact hjB2
            · dsimp only
              rw [Function.update_same]
            · dsimp only
              rw [hshape.2.2.2]
      · rw [if_neg hcond] at h
        dsimp only at h
        simp only [Option.some.injEq, Prod.mk.injEq] at h
        obtain ⟨hhtr, hj⟩ := h
        subst hhtr
        subst hj
        have hwf1 := wf_hll_only hash ht hwf (ht.hll ++ [hash k])
        have hins := wf_insert hash klen { ht with hll := ht.hll ++ [hash k] } hwf1
          k ix hiB hkey (fun y hy hlt => (hpath y hy hlt).1)
        refine ⟨hins, rfl, hiB, ?_, rfl⟩
        dsimp only
        rw [Function.update_same]

end AllocSpec

section WfOps

variable (hash klen : Nat → Nat)

theorem wf_increment (ht : HT) (k : Nat) (d : Int) (ht2 : HT) (hwf : WF hash ht)
    (h : increment_obj hash klen ht k d = .ok ht2) : WF hash ht2 := by
  rw [increment_obj] at h
  split at h
  · exact IncRes.noConfusion h
  · next hd0 =>
    split at h
    · injection h with he
      subst he
      exact hwf
    · next hdne =>
      split at h
      · exact IncRes.noConfusion h
      · next ht1 i halloc =>
        split at h
        · exact IncRes.noConfusion h
        · next hov =>
          injection h with he
          subst he
          obtain ⟨hwf1, hbq, hiB, hkey, _⟩ := allocate_spec hash klen ht k ht1 i hwf halloc
          have hold := hwf1.countRange i (by rw [hkey]; exact Option.noConfusion)
          exact wf_recount hash ht1 hwf1 i (by omega) (by rw [hkey]; rfl)
            ((ht1.table i).count + d) (by omega) (by omega) (ht1.total + d)

theorem wf_setitem (ht : HT) (k : Nat) (v : Int) (ht2 : HT) (hwf : WF hash ht)
    (hvM : v ≤ LLONG_MAX) (h : setitem hash klen ht k v = .ok ht2) : WF hash ht2 := by
  rw [setitem] at h
  split at h
  · exact SetRes.noConfusion h
  · next hv0 =>
    by_cases hv : v ≠ 0
    · rw [if_pos hv] at h
      split at h
      · exact SetRes.noConfusion h
      · next ht1 i halloc =>
        injection h with he
        subst he
        obtain ⟨hwf1, hbq, hiB, hkey, _⟩ := allocate_spec hash klen ht k ht1 i hwf halloc
        exact wf_recount hash ht1 hwf1 i (by omega) (by rw [hkey]; rfl)
          v (by omega) hvM (ht1.total + (v - (ht1.table i).count))
    · rw [if_neg hv] at h
      push_neg at hv
      subst hv
      split at h
      · exact SetRes.noConfusion h
      · next ht1 i hfind =>
        injection h with he
        subst he
        obtain ⟨he1, _⟩ := find_cell_false_eq hash ht k ht1 i hfind
        subst he1
        obtain ⟨hiB, hstop, _⟩ := find_cell_facts hash ht1 hwf k false ht1 i hfind
        rcases hstop with hs | hs
        · exact wf_recount_empty hash ht1 hwf i hs (ht1.total + (0 - (ht1.table i).count))
        · exact wf_recount hash ht1 hwf i hiB (by rw [hs]; rfl) 0 le_rfl
            (by norm_num [LLONG_MAX]) (ht1.total + (0 - (ht1.table i).count))

theorem wf_delitem (ht : HT) (k : Nat) (ht2 : HT) (hwf : WF hash ht)
    (h : delitem hash ht k = some ht2) : WF hash ht2 := by
  rw [delitem] at h
  split at h
  · exact Option.noConfusion h
  · next ht1 i hfind =>
    injection h with he
    subst he
    obtain ⟨he1, _⟩ := find_cell_false_eq hash ht k ht1 i hfind
    subst he1
    obtain ⟨hiB, hstop, _⟩ := find_cell_facts hash ht1 hwf k false ht1 i hfind
    rcases hstop with hs | hs
    · exact wf_recount_empty hash ht1 hwf i hs (ht1.total - (ht1.table i).count)
    · exact wf_recount hash ht1 hwf i hiB (by rw [hs]; rfl) 0 le_rfl
        (by norm_num [LLONG_MAX]) (ht1.total - (ht1.table i).count)

theorem wf_reachable (ht : HT) (h : Reachable hash klen ht) : WF hash ht := by
  induction h with
  | init w ht1 hi => exact wf_init hash w ht1 hi
  | inc ht1 k d ht3 _ hd hok ih => exact wf_increment hash klen ht1 k d ht3 ih hok
  | set ht1 k v ht3 _ hv hok ih => exact wf_setitem hash klen ht1 k v ht3 ih hv hok
  | del ht1 k ht3 _ hok ih => exact wf_delitem hash ht1 k ht3 ih hok
  | prune ht1 b ht3 _ hok ih => exact wf_prune hash klen ht1 b ht3 ih hok

end WfOps

/-- **C2.** In every state reachable by the public operations, every occupied
cell at index `i` with ideal bucket `r = hash(key) & mask` has no empty slot in
the cyclic range `(r, i]`: the linear-probing chain invariant holds. -/
theorem c2_chain_invariant (hash klen : Nat → Nat) (ht : HT)
    (h : Reachable hash klen ht) : ClaimChain hash ht := by
  have hwf := wf_reachable hash klen ht h
  obtain ⟨n, hn2, hn31, hB⟩ := hwf.pow
  have hB0 : 0 < ht.buckets := by
    rw [hB]
    positivity
  intro i hi k hk j hj h1 h2
  have hr0 : hash k &&& ht.hash_mask < ht.buckets := by
    rw [hwf.hm, land_mask_mod _ n ht.buckets hB]
    exact Nat.mod_lt _ hB0
  rcases Nat.eq_or_lt_of_le h2 with heq | hlt
  · have hji : j = i := cycDist_inj ht.buckets _ j i hr0 hj hi heq
    rw [hji, hk]
    exact Option.noConfusion
  · exact hwf.chain i hi k hk j hj hlt

/-- Witness for C2: the freshly constructed 4-bucket counter is reachable and
satisfies the chain property. -/
theorem c2_chain_invariant_witness : ClaimChain hash0 htEx4 :=
  c2_chain_invariant hash0 klen0 htEx4 (Reachable.init 4 htEx4 rfl)

theorem wf_htA : WF hash0 htA := by
  refine ⟨⟨2, by decide, by decide, by decide⟩, rfl, ?_, ?_, ?_, ?_, by decide, ?_⟩
  · intro x hx
    have hx4 : 4 ≤ x := hx
    show (if x = 0 then _ else if x = 1 then _ else _) = _
    rw [if_neg (by omega), if_neg (by omega)]
  · intro x hx
    by_cases h0 : x = 0
    · subst h0
      exact absurd hx (by decide)
    · by_cases h1 : x = 1
      · subst h1
        exact absurd hx (by decide)
      · show (if x = 0 then _ else if x = 1 then _ else (⟨none, 0⟩ : Cell)).count = 0
        rw [if_neg h0, if_neg h1]
  · intro x hx
    by_cases h0 : x = 0
    · subst h0
      exact ⟨by decide, by decide⟩
    · by_cases h1 : x = 1
      · subst h1
        exact ⟨by decide, by decide⟩
      · exfalso
        apply hx
        show (if x = 0 then _ else if x = 1 then _ else (⟨none, 0⟩ : Cell)).key = none
        rw [if_neg h0, if_neg h1]
  · intro i hi k hk y hy hlt
    simp only [htA, hash0, Nat.zero_and] at hi hy hk hlt ⊢
    interval_cases i
    · revert hlt
      interval_cases y <;> decide
    · revert hlt
      interval_cases y <;> decide
    · exact Option.noConfusion hk
    · exact Option.noConfusion hk
  · intro b
    by_cases hb5 : b = 5
    · subst hb5
      decide
    · by_cases hb7 : b = 7
      · subst hb7
        decide
      · show (if b = 5 then 1 else if b = 7 then 1 else 0) = _
        rw [if_neg hb5, if_neg hb7]
        symm
        rw [Finset.card_eq_zero, Finset.filter_eq_empty_iff]
        intro x hxr
        rw [Finset.mem_range] at hxr
        rintro ⟨hs, hb⟩
        simp only [htA] at hxr
        interval_cases x
        · exact hb5 (by rw [← hb]; decide)
        · exact hb7 (by rw [← hb]; decide)
        · exact absurd hs (by decide)
        · exact absurd hs (by decide)

theorem wf_htB : WF hash0 htB := by
  refine ⟨⟨2, by decide, by decide, by decide⟩, rfl, ?_, ?_, ?_, ?_, by decide, ?_⟩
  · intro x hx
    have hx4 : 4 ≤ x := hx
    show (if x = 0 then _ else if x = 1 then _ else if x = 2 then _ else _) = _
    rw [if_neg (by omega), if_neg (by omega), if_neg (by omega)]
  · intro x hx
    by_cases h0 : x = 0
    · subst h0
      exact absurd hx (by decide)
    · by_cases h1 : x = 1
      · subst h1
        exact absurd hx (by decide)
      · by_cases h2 : x = 2
        · subst h2
          exact absurd hx (by decide)
        · show (if x = 0 then _ else if x = 1 then _ else if x = 2 then _ else
            (⟨none, 0⟩ : Cell)).count = 0
          rw [if_neg h0, if_neg h1, if_neg h2]
  · intro x hx
    by_cases h0 : x = 0
    · subst h0
      exact ⟨by decide, by decide⟩
    · by_cases h1 : x = 1
      · subst h1
        exact ⟨by decide, by decide⟩
      · by_cases h2 : x = 2
        · subst h2
          exact ⟨by decide, by decide⟩
        · exfalso
          apply hx
          show (if x = 0 then _ else if x = 1 then _ else if x = 2 then _ else
            (⟨none, 0⟩ : Cell)).key = none
          rw [if_neg h0, if_neg h1, if_neg h2]
  · intro i hi k hk y hy hlt
    simp only [htB, hash0, Nat.zero_and] at hi hy hk hlt ⊢
    interval_cases i
    · revert hlt
      interval_cases y <;> decide
    · revert hlt
      interval_cases y <;> decide
    · revert hlt
      interval_cases y <;> decide
    · exact Option.noConfusion hk
  · intro b
    by_cases hb : b = 255
    · subst hb
      decide
    · show (if b = 255 then 3 else 0) = _
      rw [if_neg hb]
      symm
      rw [Finset.card_eq_zero, Finset.filter_eq_empty_iff]
      intro x hxr
      rw [Finset.mem_range] at hxr
      rintro ⟨hs, hbx⟩
      simp only [htB] at hxr
      interval_cases x
      · exact hb (by rw [← hbx]; decide)
      · exact hb (by rw [← hbx]; decide)
      · exact hb (by rw [← hbx]; decide)
      · exact absurd hs (by decide)

/-- **C1** (corrected). After `prune(b)` every surviving occupied cell has
count strictly greater than `b` and the new size is at most the prior size,
but `total` is not decreased by the evicted counts: `HT_prune_int` leaves
`total` unchanged, so the invariant `total = Σ cell.count` is broken by a
prune that discards any nonzero count. -/
theorem c1_prune_total (hash klen : Nat → Nat) (ht : HT) (b : Int) (ht2 : HT)
    (hwf : WF hash ht) (h : prune_int hash klen ht b = some ht2) :
    (∀ x, x < ht2.buckets → (ht2.table x).key ≠ none → b < (ht2.table x).count) ∧
    ht2.size ≤ ht.size ∧ ht2.total = ht.total := by
  obtain ⟨n, hn2, hn31, hB⟩ := hwf.pow
  have pf := prune_int_facts hash klen ht b ht2 n hB hn31 hwf.hm hwf.chain
    hwf.emptyCount h
  refine ⟨pf.survivorsOnly, ?_, pf.totalEq⟩
  rw [pf.sizeEq, hwf.sizeAcc]
  apply Finset.card_le_card
  intro x hx
  rw [Finset.mem_filter] at hx ⊢
  exact ⟨hx.1, hx.2.1⟩

/-- C1, counterexample: pruning `htA` at boundary 10 discards both cells,
whose counts sum to 12, yet `total()` still reports 12 afterwards instead of
the claimed 12 - 12 = 0. -/
theorem c1_prune_total_counterexample :
    specEvictedSum htA 10 = 12 ∧
    (prune_int hash0 klen0 htA 10).map total_obs = some 12 ∧
    (prune_int hash0 klen0 htA 10).map total_obs ≠ some (12 - 12) := by
  refine ⟨by decide, by decide, by decide⟩

/-- C1, witness: the provable parts at the concrete state `htA`, boundary 10. -/
theorem c1_prune_total_witness :
    prune_int hash0 klen0 htA 10 = some htA10 ∧
    ((∀ x, x < htA10.buckets → (htA10.table x).key ≠ none →
        10 < (htA10.table x).count) ∧
      htA10.size ≤ htA.size ∧ htA10.total = htA.total) :=
  ⟨rfl, c1_prune_total hash0 klen0 htA 10 htA10 wf_htA rfl⟩

theorem bin_edge_le_top : ∀ i, i < 256 → bin_edge i ≤ 0x3C0000000 := by decide

theorem bin_edge_eq (i : Nat) (hi : 16 ≤ i) :
    bin_edge i = (8 + i % 8) * 2 ^ (i / 8 - 1) := by
  unfold bin_edge
  rw [if_neg (by omega), Nat.shiftLeft_eq]
  have h7 : i &&& 7 = i % 8 := by simpa using land_two_pow_sub_one i 3
  have h3 : i >>> 3 = i / 8 := by simpa using Nat.shiftRight_eq_div_pow i 3
  rw [h7, h3]

theorem bin_edge_mono (i : Nat) (j : Nat) (hij : i ≤ j) :
    bin_edge i ≤ bin_edge j := by
  by_cases hi : i < 16
  · by_cases hj : j < 16
    · unfold bin_edge
      rw [if_pos hi, if_pos hj]
      exact hij
    · have hj16 : 16 ≤ j := by omega
      have hedge : bin_edge i = i := by
        unfold bin_edge
        rw [if_pos hi]
      rw [hedge, bin_edge_eq j hj16]
      have hp : (2 : Nat) ^ 1 ≤ 2 ^ (j / 8 - 1) :=
        Nat.pow_le_pow_right (by norm_num) (by omega)
      norm_num at hp
      have h16 := Nat.mul_le_mul (show 8 ≤ 8 + j % 8 by omega) hp
      omega
  · have hi16 : 16 ≤ i := by omega
    have hj16 : 16 ≤ j := by omega
    rw [bin_edge_eq i hi16, bin_edge_eq j hj16]
    have hqij : i / 8 ≤ j / 8 := Nat.div_le_div_right hij
    rcases Nat.eq_or_lt_of_le hqij with hq | hq
    · have hr : i % 8 ≤ j % 8 := by omega
      exact Nat.mul_le_mul (by omega) (Nat.pow_le_pow_right (by norm_num) (by omega))
    · calc (8 + i % 8) * 2 ^ (i / 8 - 1)
          ≤ 16 * 2 ^ (i / 8 - 1) := Nat.mul_le_mul_right _ (by omega)
        _ = 8 * 2 ^ (i / 8 - 1 + 1) := by ring
        _ ≤ 8 * 2 ^ (j / 8 - 1) :=
            Nat.mul_le_mul_left _ (Nat.pow_le_pow_right (by norm_num) (by omega))
        _ ≤ (8 + j % 8) * 2 ^ (j / 8 - 1) := Nat.mul_le_mul_right _ (by omega)

theorem lt_bin_edge_succ (c : Int) (h0 : 0 ≤ c) (h254 : histo_addr c ≤ 254) :
    c < (bin_edge (histo_addr c + 1) : Int) := by
  by_cases hneg : c < 0
  · omega
  · by_cases h16 : c < 16
    · have he : histo_addr c = c.toNat := by
        unfold histo_addr
        rw [if_neg hneg, if_pos h16]
      rw [he]
      by_cases hc15 : c.toNat + 1 < 16
      · have : bin_edge (c.toNat + 1) = c.toNat + 1 := by
          unfold bin_edge
          rw [if_pos hc15]
        rw [this]
        omega
      · have hc15' : c.toNat = 15 := by omega
        rw [hc15']
        have : bin_edge 16 = 16 := by decide
        rw [this]
        omega
    · by_cases hhi : (0x3C0000000 : Int) ≤ c
      · exfalso
        rw [histo_addr_high c hhi] at h254
        omega
      · -- middle range
        set m := c.toNat with hm
        have hcast : (m : Int) = c := Int.toNat_of_nonneg h0
        have hm16 : 16 ≤ m := by omega
        have hmhi : m < 0x3C0000000 := by omega
        have hm1 : 1 ≤ m := by omega
        obtain ⟨hb1, hb2⟩ := bitlen_bounds m hm1
        have hb5 : 5 ≤ bitlen m := by
          by_contra hb
          have : 2 ^ bitlen m ≤ 2 ^ 4 := Nat.pow_le_pow_right (by omega) (by omega)
          omega
        have haddr : histo_addr c = (bitlen m - 3) * 8 + ((m >>> (bitlen m - 4)) &&& 7) := by
          have := histo_addr_mid m (bitlen m) hm16 hmhi hb1 hb2
          rw [hcast] at this
          exact this
        set b := bitlen m with hbdef
        have hdpos : (0 : Nat) < 2 ^ (b - 4) := Nat.pos_pow_of_pos _ (by omega)
        have hv : m >>> (b - 4) = m / 2 ^ (b - 4) := Nat.shiftRight_eq_div_pow m (b - 4)
        set v := m / 2 ^ (b - 4) with hvdef
        have hpow : ∀ (x y : Nat), x = y → (2 : Nat) ^ x = 2 ^ y := by
          intro x y hxy
          rw [hxy]
        have he8 : (2 : Nat) ^ (b - 1) = 2 ^ (b - 4) * 8 := by
          rw [hpow (b - 1) ((b - 4) + 3) (by omega), pow_add]
          norm_num
        have he16 : (2 : Nat) ^ b = 2 ^ (b - 4) * 16 := by
          rw [hpow b ((b - 4) + 4) (by omega), pow_add]
          norm_num
        have hv8 : 8 ≤ v := by
          rw [hvdef, Nat.le_div_iff_mul_le hdpos]
          omega
        have hv16 : v < 16 := by
          rw [hvdef, Nat.div_lt_iff_lt_mul hdpos]
          omega
        have hs : v &&& 7 = v - 8 := by
          have h78 : v &&& 7 = v % 8 := by simpa using land_two_pow_sub_one v 3
          omega
        have haddr2 : histo_addr c = (b - 3) * 8 + (v - 8) := by
          rw [haddr, hv, hs]
        have hmlt : m < 2 ^ (b - 4) * (v + 1) := by
          have hdm := Nat.div_add_mod m (2 ^ (b - 4))
          have hmod : m % 2 ^ (b - 4) < 2 ^ (b - 4) := Nat.mod_lt _ hdpos
          rw [← hvdef] at hdm
          have hsplit : (2 : Nat) ^ (b - 4) * (v + 1) = 2 ^ (b - 4) * v + 2 ^ (b - 4) := by
            ring
          omega
        by_cases hv15 : v < 15
        · have h16a : 16 ≤ histo_addr c + 1 := by
            rw [haddr2]
            omega
          rw [bin_edge_eq _ h16a]
          have hq : (histo_addr c + 1) / 8 - 1 = b - 4 := by
            rw [haddr2]
            omega
          have hr : (histo_addr c + 1) % 8 = v - 7 := by
            rw [haddr2]
            omega
          rw [hq, hr]
          have hfin : m < (8 + (v - 7)) * 2 ^ (b - 4) := by
            have : (8 + (v - 7)) = v + 1 := by omega
            rw [this, Nat.mul_comm]
            exact hmlt
          calc c = (m : Int) := hcast.symm
            _ < (((8 + (v - 7)) * 2 ^ (b - 4) : Nat) : Int) := by exact_mod_cast hfin
        · have hv15' : v = 15 := by omega
          have h16a : 16 ≤ histo_addr c + 1 := by
            rw [haddr2]
            omega
          rw [bin_edge_eq _ h16a]
          have hq : (histo_addr c + 1) / 8 - 1 = b - 3 := by
            rw [haddr2, hv15']
            omega
          have hr : (histo_addr c + 1) % 8 = 0 := by
            rw [haddr2, hv15']
            omega
          rw [hq, hr]
          have hfin : m < (8 + 0) * 2 ^ (b - 3) := by
            have he : (2 : Nat) ^ b = 2 ^ (b - 3) * 8 := by
              rw [hpow b ((b - 3) + 3) (by omega), pow_add]
              norm_num
            omega
          calc c = (m : Int) := hcast.symm
            _ < (((8 + 0) * 2 ^ (b - 3) : Nat) : Int) := by exact_mod_cast hfin

theorem survivor_bin_ge (c : Int) (h0 : 0 ≤ c) (idx : Nat) (hidx : idx ≤ 255)
    (hc : (bin_edge idx : Int) ≤ c) : idx ≤ histo_addr c := by
  by_contra hlt
  push_neg at hlt
  have h254 : histo_addr c ≤ 254 := by omega
  have h1 := lt_bin_edge_succ c h0 h254
  have h2 : bin_edge (histo_addr c + 1) ≤ bin_edge idx :=
    bin_edge_mono _ _ (by omega)
  have h3 : (bin_edge (histo_addr c + 1) : Int) ≤ (bin_edge idx : Int) := by
    exact_mod_cast h2
  omega

theorem prune_scanAux_le (histo : Nat → Nat) (required : Nat) :
    ∀ fuel removing index, index ≤ 255 →
      prune_scanAux histo required fuel removing index ≤ 255 := by
  intro fuel
  induction fuel with
  | zero =>
    intro removing index hi
    exact hi
  | succ f ih =>
    intro removing index hi
    rw [prune_scanAux]
    split
    · next hcond =>
      exact ih _ (index + 1) (by omega)
    · exact hi

theorem prune_scanAux_covers (histo : Nat → Nat) (required : Nat)
    (hU : (∑ b ∈ Finset.range 255, histo b) < U32) :
    ∀ fuel index, index ≤ 255 → 255 - index ≤ fuel →
      required ≤ (∑ b ∈ Finset.range
          (prune_scanAux histo required fuel (∑ b ∈ Finset.range index, histo b) index),
        histo b) ∨
      prune_scanAux histo required fuel (∑ b ∈ Finset.range index, histo b) index = 255 := by
  intro fuel
  induction fuel with
  | zero =>
    intro index hi hf
    right
    have : index = 255 := by omega
    rw [prune_scanAux, this]
  | succ f ih =>
    intro index hi hf
    rw [prune_scanAux]
    split
    · next hcond =>
      have e1 : ((∑ b ∈ Finset.range index, histo b) + histo index) % U32 =
          ∑ b ∈ Finset.range (index + 1), histo b := by
        rw [← Finset.sum_range_succ]
        exact Nat.mod_eq_of_lt (lt_of_le_of_lt (sum_histo_mono histo (by omega)) hU)
      rw [e1]
      exact ih (index + 1) (by omega) (by omega)
    · next hcond =>
      rw [Classical.not_and_iff_or_not_not] at hcond
      rcases hcond with hge | h255
      · left
        omega
      · right
        omega

theorem histo_sum_card (B : Nat) (tb : Nat → Cell) (h : Nat → Nat)
    (hacc : ∀ b, h b = ((Finset.range B).filter
      (fun x => ((tb x).key).isSome = true ∧ histo_addr (tb x).count = b)).card)
    (m : Nat) :
    (∑ b ∈ Finset.range m, h b) =
      ((Finset.range B).filter (fun x => ((tb x).key).isSome = true ∧
        histo_addr (tb x).count < m)).card := by
  induction m with
  | zero =>
    simp
  | succ m ih =>
    rw [Finset.sum_range_succ, ih, hacc m]
    rw [← Finset.card_union_of_disjoint (by
      rw [Finset.disjoint_left]
      intro a ha hb
      rw [Finset.mem_filter] at ha hb
      omega)]
    congr 1
    ext x
    rw [Finset.mem_union, Finset.mem_filter, Finset.mem_filter, Finset.mem_filter]
    constructor
    · rintro (⟨hm, hs, hb⟩ | ⟨hm, hs, hb⟩) <;> exact ⟨hm, hs, by omega⟩
    · rintro ⟨hm, hs, hb⟩
      by_cases hbm : histo_addr (tb x).count < m
      · exact Or.inl ⟨hm, hs, hbm⟩
      · exact Or.inr ⟨hm, hs, by omega⟩

theorem sub32_eq (a b : Nat) (hb : b ≤ a) (ha : a < U32) : sub32 a b = a - b := by
  have ha' : a < 4294967296 := ha
  show (a + (4294967296 - b % 4294967296)) % 4294967296 = a - b
  omega

section C5Sec

variable (hash klen : Nat → Nat)

/-- **C5** (corrected). When the automatic prune (boundary `HT_prune_size`)
runs at or above the 3/4 load threshold, the post-prune size is at most
`buckets/2` **or** at most the bin-255 population: cells with counts at or
above `0x3C0000000` can never be evicted, so a table dominated by bin-255
cells stays above `buckets/2` after the prune. -/
theorem c5_prune_halves (ht : HT) (ht2 : HT) (hwf : WF hash ht)
    (hthresh : (ht.buckets >>> 2) * 3 ≤ ht.size)
    (h : prune_int hash klen ht (prune_size ht) = some ht2) :
    ht2.size ≤ ht.buckets >>> 1 ∨ ht2.size ≤ ht.histo 255 := by
  obtain ⟨n, hn2, hn31, hB⟩ := hwf.pow
  have hBU := wf_B_lt hash ht hwf
  have pf := prune_int_facts hash klen ht (prune_size ht) ht2 n hB hn31 hwf.hm
    hwf.chain hwf.emptyCount h
  have hsize_le := wf_size_le hash ht hwf
  have hsum255 : (∑ b ∈ Finset.range 255, ht.histo b) ≤ ht.size := by
    rw [histo_sum_card ht.buckets ht.table ht.histo hwf.histoAcc 255, hwf.sizeAcc]
    apply Finset.card_le_card
    intro x hx
    rw [Finset.mem_filter] at hx ⊢
    exact ⟨hx.1, hx.2.1⟩
  have hU : (∑ b ∈ Finset.range 255, ht.histo b) < U32 := by omega
  set required := sub32 ht.size (ht.buckets >>> 1) with hreq
  set idx := prune_scanAux ht.histo required 255 0 0 with hidx
  have hidx255 : idx ≤ 255 := prune_scanAux_le ht.histo required 255 0 0 (by omega)
  have hbound : prune_size ht = (bin_edge idx : Int) - 1 := rfl
  have hsub : ht2.size ≤ ((Finset.range ht.buckets).filter
      (fun x => ((ht.table x).key).isSome = true ∧
        idx ≤ histo_addr (ht.table x).count)).card := by
    rw [pf.sizeEq]
    apply Finset.card_le_card
    intro x hx
    rw [Finset.mem_filter] at hx ⊢
    refine ⟨hx.1, hx.2.1, ?_⟩
    have hx0 : 0 ≤ (ht.table x).count := by
      refine (hwf.countRange x ?_).1
      intro hcon
      rw [hcon] at hx
      exact absurd hx.2.1 (by simp)
    apply survivor_bin_ge _ hx0 idx hidx255
    have hgt := hx.2.2
    rw [hbound] at hgt
    omega
  have hsplit : ((Finset.range ht.buckets).filter
        (fun x => ((ht.table x).key).isSome = true ∧
          idx ≤ histo_addr (ht.table x).count)).card +
      ((Finset.range ht.buckets).filter
        (fun x => ((ht.table x).key).isSome = true ∧
          histo_addr (ht.table x).count < idx)).card = ht.size := by
    rw [hwf.sizeAcc, ← Finset.card_union_of_disjoint (by
      rw [Finset.disjoint_left]
      intro a ha hb
      rw [Finset.mem_filter] at ha hb
      omega)]
    congr 1
    ext x
    rw [Finset.mem_union, Finset.mem_filter, Finset.mem_filter, Finset.mem_filter]
    constructor
    · rintro (⟨hm, hs, _⟩ | ⟨hm, hs, _⟩) <;> exact ⟨hm, hs⟩
    · rintro ⟨hm, hs⟩
      by_cases hbm : idx ≤ histo_addr (ht.table x).count
      · exact Or.inl ⟨hm, hs, hbm⟩
      · exact Or.inr ⟨hm, hs, by omega⟩
  have hsum_idx := histo_sum_card ht.buckets ht.table ht.histo hwf.histoAcc idx
  by_cases hsz : ht.buckets >>> 1 ≤ ht.size
  · have hreq_eq : required = ht.size - (ht.buckets >>> 1) := by
      rw [hreq]
      apply sub32_eq _ _ hsz
      have hltB : ht.size < ht.buckets + 1 := by omega
      have : ht.buckets + 1 < U32 := hBU
      omega
    rcases prune_scanAux_covers ht.histo required hU 255 0 (by omega) (by omega)
      with hcov | h255
    · simp only [Finset.range_zero, Finset.sum_empty] at hcov
      rw [← hidx] at hcov
      left
      have hshift : ht.buckets >>> 1 = ht.buckets / 2 := by
        simpa using Nat.shiftRight_eq_div_pow ht.buckets 1
      omega
    · simp only [Finset.range_zero, Finset.sum_empty] at h255
      rw [← hidx] at h255
      right
      rw [hwf.histoAcc 255]
      refine le_trans hsub (Finset.card_le_card ?_)
      intro x hx
      rw [Finset.mem_filter] at hx ⊢
      have h256 := histo_addr_lt_256 (ht.table x).count
      refine ⟨hx.1, hx.2.1, ?_⟩
      have := hx.2.2
      omega
  · left
    have hle : ht2.size ≤ ht.size := by
      rw [pf.sizeEq, hwf.sizeAcc]
      apply Finset.card_le_card
      intro x hx
      rw [Finset.mem_filter] at hx ⊢
      exact ⟨hx.1, hx.2.1⟩
    omega

end C5Sec


/-- C5, counterexample: `htB` is at the 3/4 threshold with all three counts in
bin 255; the automatic prune keeps all three cells, so the resulting size 3
exceeds `buckets/2 = 2`. -/
theorem c5_prune_halves_counterexample :
    (htB.buckets >>> 2) * 3 ≤ htB.size ∧
    (prune_int hash0 klen0 htB (prune_size htB)).map HT.size = some 3 ∧
    ¬ (3 ≤ htB.buckets >>> 1) :=
  ⟨by decide, by decide, by decide⟩

/-- C5, witness: the corrected bound at the concrete state `htB`. -/
theorem c5_prune_halves_witness :
    ((htB.buckets >>> 2) * 3 ≤ htB.size ∧
     prune_int hash0 klen0 htB (prune_size htB) = some htBp) ∧
    (htBp.size ≤ htB.buckets >>> 1 ∨ htBp.size ≤ htB.histo 255) :=
  ⟨⟨by decide, rfl⟩, c5_prune_halves hash0 klen0 htB htBp wf_htB (by decide) rfl⟩

/-- **C10.** The automatic prune boundary is always at most `0x3C0000000 - 1`
(the histogram scan stops at bin index 255), and consequently every occupied
cell with a count in bin 255 (at least `0x3C0000000`) survives the automatic
prune: its exact cell reappears at some slot of the pruned table. -/
theorem c10_boundary_cap (hash klen : Nat → Nat) (ht : HT) (ht2 : HT)
    (hwf : WF hash ht)
    (h : prune_int hash klen ht (prune_size ht) = some ht2) :
    prune_size ht ≤ 0x3C0000000 - 1 ∧
    ∀ x, x < ht.buckets → 0x3C0000000 ≤ (ht.table x).count →
      ((ht.table x).key).isSome = true →
      ∃ y, y < ht2.buckets ∧ ht2.table y = ht.table x := by
  obtain ⟨n, hn2, hn31, hB⟩ := hwf.pow
  have pf := prune_int_facts hash klen ht (prune_size ht) ht2 n hB hn31 hwf.hm
    hwf.chain hwf.emptyCount h
  have hcap : prune_size ht ≤ 0x3C0000000 - 1 := by
    have hbound : prune_size ht = (bin_edge (prune_scanAux ht.histo
        (sub32 ht.size (ht.buckets >>> 1)) 255 0 0) : Int) - 1 := rfl
    have hle := prune_scanAux_le ht.histo (sub32 ht.size (ht.buckets >>> 1)) 255 0 0
      (by omega)
    have htop := bin_edge_le_top (prune_scanAux ht.histo
        (sub32 ht.size (ht.buckets >>> 1)) 255 0 0) (by omega)
    have htop' : ((bin_edge (prune_scanAux ht.histo
        (sub32 ht.size (ht.buckets >>> 1)) 255 0 0)) : Int) ≤ 0x3C0000000 := by
      exact_mod_cast htop
    omega
  refine ⟨hcap, ?_⟩
  intro x hx hcount hsome
  have hmem : ht.table x ∈ Multiset.map ht.table ((Finset.range ht.buckets).filter
      (fun y => ((ht.table y).key).isSome = true ∧
        prune_size ht < (ht.table y).count)).val := by
    apply Multiset.mem_map_of_mem
    rw [Finset.mem_val, Finset.mem_filter, Finset.mem_range]
    exact ⟨hx, hsome, by omega⟩
  rw [← pf.cellsPerm] at hmem
  obtain ⟨y, hy, hcell⟩ := Multiset.mem_map.mp hmem
  rw [Finset.mem_val, Finset.mem_filter, Finset.mem_range] at hy
  refine ⟨y, ?_, hcell⟩
  rw [pf.bucketsEq]
  exact hy.1

/-- C10, witness: at `htB` every one of the three bin-255 cells survives the
automatic prune. -/
theorem c10_boundary_cap_witness :
    prune_int hash0 klen0 htB (prune_size htB) = some htBp ∧
    (prune_size htB ≤ 0x3C0000000 - 1 ∧
     ∀ x, x < htB.buckets → 0x3C0000000 ≤ (htB.table x).count →
       ((htB.table x).key).isSome = true →
       ∃ y, y < htBp.buckets ∧ htBp.table y = htB.table x) :=
  ⟨rfl, c10_boundary_cap hash0 klen0 htB htBp wf_htB rfl⟩

section HllSec

variable (hash klen : Nat → Nat)

theorem allocate_hll (ht : HT) (k : Nat) (htr : HT) (j : Nat)
    (h : allocate_cell hash klen ht k = some (htr, j)) :
    htr.hll = ht.hll ++ [hash k] := by
  rw [allocate_cell] at h
  split at h
  · exact absurd h (by simp)
  · next ht1x ix hfind =>
    obtain ⟨e1, _⟩ := find_cell_true_eq hash ht k ht1x ix hfind
    subst e1
    dsimp only at h
    split at h
    · next k2 hkey =>
      simp only [Option.some.injEq, Prod.mk.injEq] at h
      obtain ⟨hhtr, hj⟩ := h
      subst hhtr
      rfl
    · next hkey =>
      by_cases hcond : ({ ht with hll := ht.hll ++ [hash k] } : HT).buckets >>> 2 * 3 ≤
          ({ ht with hll := ht.hll ++ [hash k] } : HT).size
      · rw [if_pos hcond] at h
        cases hpr : prune_int hash klen { ht with hll := ht.hll ++ [hash k] }
            (prune_size { ht with hll := ht.hll ++ [hash k] }) with
        | none =>
          rw [hpr] at h
          exact absurd h (by simp)
        | some ht2p =>
          rw [hpr] at h
          dsimp only at h
          have hshape := prune_int_shape hash klen _ _ ht2p hpr
          cases hfc : find_cell hash ht2p k false with
          | none =>
            rw [hfc] at h
            exact absurd h (by simp)
          | some p =>
            obtain ⟨ht2x, j2⟩ := p
            rw [hfc] at h
            dsimp only at h
            simp only [Option.some.injEq, Prod.mk.injEq] at h
            obtain ⟨hhtr, hj⟩ := h
            subst hhtr
            obtain ⟨he2, _⟩ := find_cell_false_eq hash ht2p k ht2x j2 hfc
            subst he2
            dsimp only
            rw [hshape.2.2.2]
      · rw [if_neg hcond] at h
        dsimp only at h
        simp only [Option.some.injEq, Prod.mk.injEq] at h
        obtain ⟨hhtr, hj⟩ := h
        subst hhtr
        rfl

end HllSec

/-- **C9** (corrected). The sketch is fed the full pre-masked 32-bit hash on
every `allocate_cell` call — that is, on every successful increment with a
positive delta and every set with a nonzero value, whether or not the key is
already present — and never on the lookup-only paths (a zero-value set or a
delete). The claimed "exactly once per first-time insertion" is refuted by
the counterexample: a second increment of the same key feeds the sketch
again. -/
theorem c9_hll_feed (hash2 klen2 : Nat → Nat) (ht : HT) (k : Nat) :
    (∀ d ht2, increment_obj hash2 klen2 ht k d = .ok ht2 → 0 < d →
      ht2.hll = ht.hll ++ [hash2 k]) ∧
    (∀ v ht2, setitem hash2 klen2 ht k v = .ok ht2 → v ≠ 0 →
      ht2.hll = ht.hll ++ [hash2 k]) ∧
    (∀ ht2, setitem hash2 klen2 ht k 0 = .ok ht2 → ht2.hll = ht.hll) ∧
    (∀ ht2, delitem hash2 ht k = some ht2 → ht2.hll = ht.hll) := by
  refine ⟨?_, ?_, ?_, ?_⟩
  · intro d ht2 h hd
    rw [increment_obj] at h
    split at h
    · exact IncRes.noConfusion h
    · split at h
      · next hd0 =>
        omega
      · split at h
        · exact IncRes.noConfusion h
        · next ht1 i halloc =>
          split at h
          · exact IncRes.noConfusion h
          · injection h with he
            subst he
            exact allocate_hll hash2 klen2 ht k ht1 i halloc
  · intro v ht2 h hv
    rw [setitem] at h
    split at h
    · exact SetRes.noConfusion h
    · split at h
      · exact SetRes.noConfusion h
      · next ht1 i heq =>
        injection h with he
        subst he
        exact allocate_hll hash2 klen2 ht k ht1 i heq
  · intro ht2 h
    rw [setitem] at h
    split at h
    · exact SetRes.noConfusion h
    · split at h
      · exact SetRes.noConfusion h
      · next ht1 i heq =>
        injection h with he
        subst he
        rw [if_neg (by omega)] at heq
        obtain ⟨he1, _⟩ := find_cell_false_eq hash2 ht k ht1 i heq
        subst he1
        rfl
  · intro ht2 h
    rw [delitem] at h
    split at h
    · exact Option.noConfusion h
    · next ht1 i hfind =>
      injection h with he
      subst he
      obtain ⟨he1, _⟩ := find_cell_false_eq hash2 ht k ht1 i hfind
      subst he1
      rfl

/-- C9, counterexample: two increments of the same key 0 feed the sketch twice
([0, 0]); under the claim the sketch would hold a single entry after the
second (non-first-time) increment. -/
theorem c9_hll_feed_counterexample :
    (runInc hash0 klen0 (runInc hash0 klen0 (some htEx4) 0 1) 0 1).map
        (fun ht => ht.hll) = some [hash0 0, hash0 0] ∧
    (runInc hash0 klen0 (runInc hash0 klen0 (some htEx4) 0 1) 0 1).map
        (fun ht => ht.hll.length) ≠ some 1 :=
  ⟨by decide, by decide⟩

/-- C9, witness: the first increment of key 0 appends exactly the pre-masked
hash of the key. -/
theorem c9_hll_feed_witness :
    increment_obj hash0 klen0 htEx4 0 1 = .ok htE1 ∧
    htE1.hll = htEx4.hll ++ [hash0 0] :=
  ⟨rfl, (c9_hll_feed hash0 klen0 htEx4 0).1 1 htE1 rfl (by decide)⟩

theorem bitlenAux_pow : ∀ fuel n, 2 ^ n ≤ fuel → bitlenAux fuel (2 ^ n) = n + 1 := by
  intro fuel
  induction fuel with
  | zero =>
    intro n hn
    have := Nat.pos_pow_of_pos n (show 0 < 2 by norm_num)
    omega
  | succ f ih =>
    intro n hn
    cases n with
    | zero =>
      rw [bitlenAux]
      norm_num
      exact bitlenAux_zero f
    | succ m =>
      rw [bitlenAux, if_neg (by positivity)]
      have hdiv : 2 ^ (m + 1) / 2 = 2 ^ m := by
        rw [pow_succ]
        exact Nat.mul_div_cancel _ (by norm_num)
      rw [hdiv, ih m (by
        have hp : (1 : Nat) ≤ 2 ^ m := Nat.one_le_two_pow
        have he : 2 ^ (m + 1) = 2 ^ m * 2 := pow_succ 2 m
        omega)]

theorem bitlen_pow (n : Nat) : bitlen (2 ^ n) = n + 1 :=
  bitlenAux_pow (2 ^ n) n le_rfl

theorem rebuildTable_roundtrip (l : List Cell) :
    rebuildTable (l.map fun c => (((c.key).isSome), c.count))
      (l.filterMap fun c => c.key) = some l := by
  induction l with
  | nil => rfl
  | cons c rest ih =>
    cases hk : c.key with
    | none =>
      have hc : c = ⟨none, c.count⟩ := by
        cases c
        dsimp only at hk
        rw [hk]
      simp only [List.map_cons, List.filterMap_cons, hk]
      rw [rebuildTable.eq_def]
      simp only [Option.isSome_none, Option.isSome_some]
      rw [ih, ← hc]
      rfl
    | some k =>
      have hc : c = ⟨some k, c.count⟩ := by
        cases c
        dsimp only at hk
        rw [hk]
      simp only [List.map_cons, List.filterMap_cons, hk]
      rw [rebuildTable.eq_def]
      simp only [Option.isSome_none, Option.isSome_some]
      rw [ih, ← hc]
      rfl

theorem map_range_getD (l : List Cell) (d : Cell) :
    (List.range l.length).map (fun i => l.getD i d) = l := by
  apply List.ext_getElem
  · rw [List.length_map, List.length_range]
  · intro i h1 h2
    rw [List.getElem_map, List.getElem_range]
    exact List.getD_eq_getElem l d h2

theorem map_range_getD_pair (l : List (Bool × Int)) :
    (List.range l.length).map (fun i => l.getD i (false, 0)) = l := by
  apply List.ext_getElem
  · rw [List.length_map, List.length_range]
  · intro i h1 h2
    rw [List.getElem_map, List.getElem_range]
    exact List.getD_eq_getElem l (false, 0) h2

theorem ht_init_pow (n : Nat) (h2 : 2 ≤ n) (h31 : n ≤ 31) :
    ht_init ((2 ^ n : Nat) : Int) =
      .ok { buckets := 2 ^ n, hash_mask := 2 ^ n - 1, str_allocated := 0
            total := 0, size := 0, table := fun _ => ⟨none, 0⟩
            histo := fun _ => 0, max_prune := 0, hll := [] } := by
  have hlo : (4 : Nat) ≤ 2 ^ n := by
    calc (4 : Nat) = 2 ^ 2 := by norm_num
    _ ≤ 2 ^ n := Nat.pow_le_pow_right (by norm_num) h2
  have hhi : (2 : Nat) ^ n ≤ 2 ^ 31 := Nat.pow_le_pow_right (by norm_num) h31
  rw [ht_init, if_neg (by
      rw [Int.not_lt]
      exact_mod_cast hlo),
    if_neg (by
      rw [Int.not_lt]
      have : ((2 : Nat) ^ 31 : Int) ≤ 0xFFFFFFFF := by norm_num
      have h := hhi
      omega)]
  have htn : ((2 ^ n : Nat) : Int).toNat = 2 ^ n := Int.toNat_natCast _
  rw [htn, bitlen_pow n]
  have hsub : n + 1 - 1 = n := by omega
  rw [hsub]
  have hshift : (1 : Nat) <<< n = 2 ^ n := by
    rw [Nat.shiftLeft_eq, Nat.one_mul]
  dsimp only
  rw [hshift]

theorem restore_snapshot (hash : Nat → Nat) (ht : HT) (hwf : WF hash ht) :
    restore (snapshot ht) = some ht := by
  obtain ⟨n, hn2, hn31, hB⟩ := hwf.pow
  have hcells : (snapshot ht).cells =
      ((List.range ht.buckets).map ht.table).map (fun c => (((c.key).isSome), c.count)) := by
    rw [snapshot]
    dsimp only
    rw [List.map_map]
    rfl
  have hkeys : (snapshot ht).keys =
      ((List.range ht.buckets).map ht.table).filterMap (fun c => c.key) := by
    rw [snapshot]
    dsimp only
    rw [List.filterMap_map]
    rfl
  have hlen : ((snapshot ht).cells).length = ht.buckets := by
    rw [hcells, List.length_map, List.length_map, List.length_range]
  rw [restore]
  have hsb : ((snapshot ht).buckets : Int) = ((2 ^ n : Nat) : Int) := by
    rw [snapshot]
    dsimp only
    rw [hB]
  rw [hsb, ht_init_pow n hn2 hn31]
  dsimp only
  rw [set_state]
  dsimp only
  have hgetD : (List.range (2 ^ n)).map (fun i => (snapshot ht).cells.getD i (false, 0)) =
      (snapshot ht).cells := by
    have := map_range_getD_pair (snapshot ht).cells
    rw [hlen, hB] at this
    exact this
  rw [hgetD, hcells, hkeys, rebuildTable_roundtrip]
  have htable : (fun i => ((List.range ht.buckets).map ht.table).getD i ⟨none, 0⟩) =
      ht.table := by
    funext i
    by_cases hi : i < ht.buckets
    · rw [List.getD_eq_getElem _ _ (by
        rw [List.length_map, List.length_range]
        exact hi)]
      rw [List.getElem_map, List.getElem_range]
    · rw [List.getD_eq_default _ _ (by
        rw [List.length_map, List.length_range]
        omega)]
      exact (hwf.offT i (by omega)).symm
  have hhisto : (fun b => ((snapshot ht).histo.getD b 0)) = ht.histo := by
    funext b
    by_cases hb : b < 256
    · have hsh : (snapshot ht).histo = (List.range 256).map ht.histo := rfl
      rw [hsh, List.getD_eq_getElem _ _ (by
        rw [List.length_map, List.length_range]
        exact hb)]
      rw [List.getElem_map, List.getElem_range]
    · have hsh : (snapshot ht).histo = (List.range 256).map ht.histo := rfl
      rw [hsh, List.getD_eq_default _ _ (by
        rw [List.length_map, List.length_range]
        omega)]
      symm
      rw [hwf.histoAcc b, Finset.card_eq_zero, Finset.filter_eq_empty_iff]
      intro x _
      rintro ⟨_, hbx⟩
      have := histo_addr_lt_256 (ht.table x).count
      omega
  dsimp only
  rw [htable]
  rw [show (snapshot ht).total = ht.total from rfl,
    show (snapshot ht).str_allocated = ht.str_allocated from rfl,
    show (snapshot ht).size = ht.size from rfl,
    show (snapshot ht).max_prune = ht.max_prune from rfl,
    show (snapshot ht).hll = ht.hll from rfl]
  rw [hhisto]
  rw [← hB, ← hwf.hm]

/-- **C7.** Restoring the snapshot of a well-formed counter reproduces the
exact state, so every public observer — lookups, `total()`, `buckets()`,
`cardinality()` and `quality()` under any external estimator, `mem()` and the
iteration sequence — agrees with the original. -/
theorem c7_restore_observers (hash : Nat → Nat) (est : List Nat → Int)
    (estq : List Nat → Rat) (ht : HT) (hwf : WF hash ht) :
    ∃ ht2, restore (snapshot ht) = some ht2 ∧
      (∀ k, getitem hash ht2 k = getitem hash ht k) ∧
      total_obs ht2 = total_obs ht ∧
      buckets_obs ht2 = buckets_obs ht ∧
      cardinality_obs est ht2 = cardinality_obs est ht ∧
      quality_obs estq ht2 = quality_obs estq ht ∧
      mem_obs ht2 = mem_obs ht ∧
      items_obs ht2 = items_obs ht :=
  ⟨ht, restore_snapshot hash ht hwf, fun _ => rfl, rfl, rfl, rfl, rfl, rfl, rfl⟩

/-- C7, witness: the round trip at the concrete two-cell counter `htA`. -/
theorem c7_restore_observers_witness :
    ∃ ht2, restore (snapshot htA) = some ht2 ∧
      (∀ k, getitem hash0 ht2 k = getitem hash0 htA k) ∧
      total_obs ht2 = total_obs htA ∧
      buckets_obs ht2 = buckets_obs htA ∧
      cardinality_obs (fun _ => 0) ht2 = cardinality_obs (fun _ => 0) htA ∧
      quality_obs (fun _ => 0) ht2 = quality_obs (fun _ => 0) htA ∧
      mem_obs ht2 = mem_obs htA ∧
      items_obs ht2 = items_obs htA :=
  c7_restore_observers hash0 (fun _ => 0) (fun _ => 0) htA wf_htA
